import Mathlib

/-!
Verification of the thread-simulation engine of the `datasynth` repository.

The Python sources are shallowly embedded:
* Python `str` values are modelled as `List Char` (`Str`), and the string
  operations the code uses (`split`, `rstrip`, `lower`, `startswith`, `in`)
  are translated as structurally recursive functions on `Str`.
* Python `datetime` values are modelled as minute counts (`ℕ`).
* `uuid.uuid4()` / fresh `message_id` allocation is modelled by a counter in
  the engine state (the spec's stated non-goal: "no guarantee of uniqueness of
  generated identifiers beyond practical collision avoidance", so fresh
  allocation is the intended semantics).
* `random` draws are modelled by an oracle `ℕ → ℕ` together with a cursor;
  each draw reads the next oracle value.  `random.randint(a, b)` becomes
  `a + r % (b + 1 - a)`; the weighted draw over
  `["reply", "forward", "nothing"]` with weights `[0.8, 0.1, 0.1]` becomes a
  draw `r % 10` with `0..7 ↦ reply`, `8 ↦ forward`, `9 ↦ nothing`, and the
  `random.random() < 0.15` early-end test becomes `r % 100 < 15`: the same
  sets of reachable branch outcomes, with matching default distributions.
* The Faker / LLM content providers are external collaborators per the spec;
  the engine treats their output as opaque text, modelled by `fake_text`
  applied to a fresh random draw (the `llm is None` fallback path of the
  code, which is the only deterministic one).
-/

namespace DataSynth

/-- Python strings, modelled as lists of characters. -/
abbrev Str := List Char

/-- The separator `" <"` used throughout the code to parse display strings. -/
def sepAngle : Str := " <".toList

/-- Fuel-indexed worker for Python's `str.split(sep)` (non-empty `sep`).
Consumes at least one character per step, so fuel `s.length` suffices. -/
def split_go (sep : Str) : ℕ → Str → List Str
  | 0, s => [s]
  | _ + 1, [] => [[]]
  | n + 1, c :: rest =>
    if sep.isPrefixOf (c :: rest) then
      [] :: split_go sep n ((c :: rest).drop sep.length)
    else
      match split_go sep n rest with
      | f :: fs => (c :: f) :: fs
      | [] => [[c]]

/-- Python `s.split(sep)` for a non-empty separator. -/
def split_on (sep s : Str) : List Str := split_go sep s.length s

/-- Python `sep in s` (substring test). -/
def contains_sub (sep : Str) : Str → Bool
  | [] => sep.isPrefixOf []
  | c :: rest => sep.isPrefixOf (c :: rest) || contains_sub sep rest

/-- Python `s.rstrip(">")`: remove every trailing `'>'`. -/
def rstrip_gt (s : Str) : Str := (s.reverse.dropWhile (fun c => c = '>')).reverse

/-- Python `s.lower()` (ASCII is all the code compares). -/
def lower_str (s : Str) : Str := s.map Char.toLower

/-- Python `s.startswith(t)`. -/
def starts_with (t s : Str) : Bool := t.isPrefixOf s

/-- The part of `s` strictly before the first occurrence of `sep`
(`s` itself if `sep` does not occur).  Used to state what the spec calls
"splits on the first `\" <\"`". -/
def before_first (sep : Str) : Str → Str
  | [] => []
  | c :: rest =>
    if sep.isPrefixOf (c :: rest) then [] else c :: before_first sep rest

/-- The part of `s` strictly after the first occurrence of `sep`
(empty if `sep` does not occur).  This is the claim's "part after the first
`\" <\"`", which keeps any later occurrences of the separator. -/
def after_first (sep : Str) : Str → Str
  | [] => []
  | c :: rest =>
    if sep.isPrefixOf (c :: rest) then (c :: rest).drop sep.length
    else after_first sep rest

/-- Whether `s` contains a `'<'` with some `'>'` after it: the claim's and the
spec's "a `\"<...>\"` is found in `s`" condition. -/
def has_angle_pair : Str → Bool
  | [] => false
  | c :: rest => (c = '<' && rest.contains '>') || has_angle_pair rest

/-- Translation of `parse_display` from `src/models/email.py`: on
`" <" in display` it returns `display.split(" <")[0]` and
`display.split(" <")[1].rstrip(">")`; otherwise the whole string twice.
The second match arm is unreachable (when the separator occurs, the split has
at least two fields, see `contains_sub_iff_split`). -/
def parse_display (display : Str) : Str × Str :=
  if contains_sub sepAngle display then
    match split_on sepAngle display with
    | x :: y :: _ => (x, rstrip_gt y)
    | _ => (display, display)
  else (display, display)

/-! Basic facts about `split_go` / `split_on`. -/

theorem split_go_fuel (sep : Str) (hsep : sep ≠ []) :
    ∀ n m s, s.length ≤ n → s.length ≤ m → split_go sep n s = split_go sep m s := by
  intro n
  induction n using Nat.strong_induction_on with
  | _ n ih =>
    intro m s hn hm
    cases s with
    | nil => cases n <;> cases m <;> rfl
    | cons c rest =>
      simp only [List.length_cons] at hn hm
      obtain ⟨n', rfl⟩ : ∃ k, n = k + 1 := ⟨n - 1, by omega⟩
      obtain ⟨m', rfl⟩ : ∃ k, m = k + 1 := ⟨m - 1, by omega⟩
      have hdrop : ((c :: rest).drop sep.length).length ≤ rest.length := by
        rw [List.length_drop]
        cases sep with
        | nil => exact absurd rfl hsep
        | cons a as => simp only [List.length_cons]; omega
      simp only [split_go]
      by_cases hp : sep.isPrefixOf (c :: rest)
      · simp only [hp, if_true]
        rw [ih n' (Nat.lt_succ_self n') m' _ (by omega) (by omega)]
      · simp only [hp, Bool.false_eq_true, if_false]
        rw [ih n' (Nat.lt_succ_self n') m' rest (by omega) (by omega)]

theorem split_on_nil (sep : Str) : split_on sep [] = [[]] := rfl

theorem split_on_pos (sep s : Str) (hsep : sep ≠ []) (hp : sep.isPrefixOf s = true)
    (hs : s ≠ []) :
    split_on sep s = [] :: split_on sep (s.drop sep.length) := by
  match s with
  | c :: rest =>
    show split_go sep (rest.length + 1) (c :: rest) = _
    simp only [split_go, hp, if_true]
    congr 1
    apply split_go_fuel sep hsep
    · cases sep with
      | nil => exact absurd rfl hsep
      | cons a as =>
        have := List.length_drop (a :: as).length (c :: rest)
        simp only [List.length_cons] at this ⊢
        omega
    · exact Nat.le_refl _

theorem split_on_neg (sep : Str) (c : Char) (rest : Str)
    (hp : sep.isPrefixOf (c :: rest) = false) :
    split_on sep (c :: rest) =
      match split_on sep rest with
      | f :: fs => (c :: f) :: fs
      | [] => [[c]] := by
  show split_go sep (rest.length + 1) (c :: rest) = _
  simp only [split_go, hp, Bool.false_eq_true, if_false]
  rfl

theorem split_on_ne_nil (sep : Str) (hsep : sep ≠ []) (s : Str) : split_on sep s ≠ [] := by
  match s with
  | [] => simp [split_on_nil]
  | c :: rest =>
    by_cases hp : sep.isPrefixOf (c :: rest)
    · rw [split_on_pos sep _ hsep hp (by simp)]
      simp
    · rw [split_on_neg sep c rest (by rwa [Bool.not_eq_true] at hp)]
      cases split_on sep rest <;> simp

theorem split_on_of_not_contains (sep s : Str) (h : contains_sub sep s = false) :
    split_on sep s = [s] := by
  induction s with
  | nil => exact split_on_nil sep
  | cons c rest ih =>
    simp only [contains_sub, Bool.or_eq_false_iff] at h
    rw [split_on_neg sep c rest h.1, ih h.2]

theorem contains_sub_iff_split (sep : Str) (hsep : sep ≠ []) (s : Str) :
    contains_sub sep s = true ↔ 1 < (split_on sep s).length := by
  induction s with
  | nil =>
    simp only [contains_sub, split_on_nil]
    constructor
    · intro h
      rw [List.isPrefixOf_iff_prefix] at h
      exact absurd (List.prefix_nil.mp h) hsep
    · simp
  | cons c rest ih =>
    by_cases hp : sep.isPrefixOf (c :: rest)
    · rw [split_on_pos sep _ hsep hp (by simp)]
      simp only [contains_sub, hp, Bool.true_or, true_iff, List.length_cons]
      have := split_on_ne_nil sep hsep ((c :: rest).drop sep.length)
      cases h : split_on sep ((c :: rest).drop sep.length) with
      | nil => exact absurd h this
      | cons a l => simp
    · rw [split_on_neg sep c rest (by rwa [Bool.not_eq_true] at hp)]
      simp only [contains_sub, hp, Bool.false_or]
      rw [ih]
      have := split_on_ne_nil sep hsep rest
      cases h : split_on sep rest with
      | nil => exact absurd h this
      | cons a l => simp

theorem sepAngle_eq : sepAngle = [' ', '<'] := rfl

theorem sepAngle_ne_nil : sepAngle ≠ [] := by simp [sepAngle_eq]

theorem before_first_of_not_contains (sep s : Str) (h : contains_sub sep s = false) :
    before_first sep s = s := by
  induction s with
  | nil => rfl
  | cons c rest ih =>
    simp only [contains_sub, Bool.or_eq_false_iff] at h
    simp only [before_first, h.1, Bool.false_eq_true, if_false, ih h.2]

theorem split_on_decomp (s : Str) (h : contains_sub sepAngle s = true) :
    split_on sepAngle s =
      before_first sepAngle s :: split_on sepAngle (after_first sepAngle s) := by
  induction s with
  | nil => simp [contains_sub, sepAngle_eq, List.isPrefixOf] at h
  | cons c rest ih =>
    by_cases hp : sepAngle.isPrefixOf (c :: rest)
    · rw [split_on_pos sepAngle _ sepAngle_ne_nil hp (by simp)]
      simp only [before_first, after_first, hp, if_true]
    · have hf : sepAngle.isPrefixOf (c :: rest) = false := by
        rwa [Bool.not_eq_true] at hp
      simp only [contains_sub, hf, Bool.false_or] at h
      rw [split_on_neg sepAngle c rest hf, ih h]
      simp only [before_first, after_first, hf, Bool.false_eq_true, if_false]

theorem split_on_two_fields (s : Str) (h : contains_sub sepAngle s = true) :
    ∃ t, split_on sepAngle s =
      before_first sepAngle s ::
        before_first sepAngle (after_first sepAngle s) :: t := by
  rw [split_on_decomp s h]
  by_cases h2 : contains_sub sepAngle (after_first sepAngle s)
  · rw [split_on_decomp _ h2]
    exact ⟨_, rfl⟩
  · rw [Bool.not_eq_true] at h2
    rw [split_on_of_not_contains sepAngle (after_first sepAngle s) h2]
    rw [before_first_of_not_contains sepAngle (after_first sepAngle s) h2]
    exact ⟨[], rfl⟩

theorem before_first_length_lt (s : Str) (h : contains_sub sepAngle s = true) :
    (before_first sepAngle s).length < s.length := by
  induction s with
  | nil => simp [contains_sub, sepAngle_eq, List.isPrefixOf] at h
  | cons c rest ih =>
    by_cases hp : sepAngle.isPrefixOf (c :: rest)
    · simp [before_first, hp]
    · have hf : sepAngle.isPrefixOf (c :: rest) = false := by
        rwa [Bool.not_eq_true] at hp
      simp only [contains_sub, hf, Bool.false_or] at h
      simp only [before_first, hf, Bool.false_eq_true, if_false, List.length_cons]
      exact Nat.succ_lt_succ (ih h)

/-- With the separator present, `parse_display` returns the field before the
first `" <"` and the field *between* the first `" <"` and the next one
(trailing `'>'`s stripped); without it, the input twice. -/
theorem parse_display_eq (s : Str) :
    (contains_sub sepAngle s = true →
      parse_display s =
        (before_first sepAngle s,
         rstrip_gt (before_first sepAngle (after_first sepAngle s))))
    ∧ (contains_sub sepAngle s = false → parse_display s = (s, s)) := by
  constructor
  · intro h
    obtain ⟨t, ht⟩ := split_on_two_fields s h
    simp only [parse_display, h, if_true, ht]
  · intro h
    simp only [parse_display, h, Bool.false_eq_true, if_false]

theorem parse_display_self_iff (s : Str) :
    parse_display s = (s, s) ↔ contains_sub sepAngle s = false := by
  constructor
  · intro h
    by_contra hc
    rw [Bool.not_eq_false] at hc
    have hlt := before_first_length_lt s hc
    have := (parse_display_eq s).1 hc
    rw [this] at h
    have hfst : before_first sepAngle s = s := congrArg Prod.fst h
    rw [hfst] at hlt
    exact Nat.lt_irrefl _ hlt
  · intro h
    exact (parse_display_eq s).2 h

/-! Splitting a well-formed display string `name ++ " <" ++ email ++ ">"`. -/

theorem isPrefixOf_sepAngle_append (b : Str) :
    sepAngle.isPrefixOf (sepAngle ++ b) = true := by
  rw [List.isPrefixOf_iff_prefix]
  exact List.prefix_append _ _

theorem split_on_append_sep (a b : Str) (h : contains_sub sepAngle a = false) :
    split_on sepAngle (a ++ sepAngle ++ b) = a :: split_on sepAngle b := by
  induction a with
  | nil =>
    simp only [List.nil_append]
    rw [split_on_pos sepAngle _ sepAngle_ne_nil (isPrefixOf_sepAngle_append b)
      (by simp [sepAngle_eq])]
    rw [List.drop_left]
  | cons c a' ih =>
    simp only [contains_sub, Bool.or_eq_false_iff] at h
    have hf : sepAngle.isPrefixOf (c :: a' ++ sepAngle ++ b) = false := by
      cases a' with
      | nil => simp [sepAngle_eq, List.isPrefixOf]
      | cons d a'' =>
        have := h.1
        simp only [sepAngle_eq, List.isPrefixOf, List.cons_append] at this ⊢
        simp only [Bool.and_eq_false_iff] at this ⊢
        rcases this with h1 | h2
        · left; exact h1
        · right; simpa using h2
    have := split_on_neg sepAngle c (a' ++ sepAngle ++ b) (by simpa using hf)
    simp only [List.cons_append] at this ⊢
    rw [this, ih h.2]

theorem contains_sub_of_isPrefixOf (sep s : Str) (h : sep.isPrefixOf s = true) :
    contains_sub sep s = true := by
  cases s with
  | nil => exact h
  | cons c rest => simp [contains_sub, h]

theorem contains_sub_append_sep (a b : Str) :
    contains_sub sepAngle (a ++ sepAngle ++ b) = true := by
  induction a with
  | nil =>
    simp only [List.nil_append]
    exact contains_sub_of_isPrefixOf sepAngle _ (isPrefixOf_sepAngle_append b)
  | cons c a' ih =>
    simp only [List.cons_append]
    rw [show contains_sub sepAngle (c :: (a' ++ sepAngle ++ b)) =
        (sepAngle.isPrefixOf (c :: (a' ++ sepAngle ++ b)) ||
          contains_sub sepAngle (a' ++ sepAngle ++ b)) from rfl]
    rw [ih, Bool.or_true]

theorem contains_sub_append_gtchar (m : Str)
    (h : contains_sub sepAngle m = false) :
    contains_sub sepAngle (m ++ ['>']) = false := by
  induction m with
  | nil => simp [contains_sub, sepAngle_eq, List.isPrefixOf]
  | cons c m' ih =>
    simp only [contains_sub, Bool.or_eq_false_iff] at h ⊢
    refine ⟨?_, ih h.2⟩
    cases m' with
    | nil => simp [sepAngle_eq, List.isPrefixOf]
    | cons d m'' =>
      have := h.1
      simp only [sepAngle_eq, List.isPrefixOf, List.cons_append,
        Bool.and_eq_false_iff] at this ⊢
      rcases this with h1 | h2
      · left; exact h1
      · right; simpa using h2

theorem rstrip_gt_append (m : Str) (h : m.reverse.head? ≠ some '>') :
    rstrip_gt (m ++ ['>']) = m := by
  unfold rstrip_gt
  have hrev : (m ++ ['>']).reverse = '>' :: m.reverse := by
    rw [List.reverse_append]
    rfl
  rw [hrev, List.dropWhile_cons, if_pos (by simp)]
  cases hm : m.reverse with
  | nil =>
    have h0 : m = [] := List.reverse_eq_nil_iff.mp hm
    rw [h0]
    rfl
  | cons x xs =>
    have hx : decide (x = '>') = false := by
      simp only [decide_eq_false_iff_not]
      intro hxx
      apply h
      rw [hm, hxx]
      rfl
    rw [List.dropWhile_cons]
    simp only [hx, Bool.false_eq_true, if_false]
    rw [← hm, List.reverse_reverse]

/-! The engine data model (`src/models/email.py`, `src/models/thread_generator.py`). -/

/-- Message kinds (`msg_type` / `Email.type` in the code). -/
inductive MsgType
  | new
  | reply
  | forward
deriving DecidableEq, Repr

/-- A roster record `{name, email, title, department}`. -/
structure Person where
  name : Str
  email : Str
  title : Str
  department : Str
deriving DecidableEq, Repr

/-- One email message.  `message_id` and `thread_id` are modelled as numbers
allocated from the engine counter (standing for the code's uuid-derived
strings); `in_reply_to` is omitted because the constructor always sets it to
`parent_id`.  `id` is absorbed into `messageId`. -/
structure Email where
  messageId : ℕ
  threadId : ℕ
  parentId : Option ℕ
  sender : Str
  recipients : List Str
  cc : List Str
  subject : Str
  body : Str
  date : ℕ
  type : MsgType
  references : List ℕ
  attachments : List ℕ
deriving DecidableEq, Repr

/-- The mutable fields of `ThreadGenerator` (plus the random cursor `rpos`;
the random oracle itself is passed to each operation).  `threadKeys` records
the dict insertion order of `self.threads`; the thread index itself is
recovered from the flat list by `thread_msgs`, which is faithful because
`_store_email` appends to the flat list and to `threads[thread_id]`
in the same order. -/
structure GenState where
  emails : List Email
  threadKeys : List ℕ
  repliedParentIds : List ℕ
  usedSubjects : List Str
  currentDate : ℕ
  roster : List Person
  topic : Option Str
  ctr : ℕ
  rpos : ℕ
deriving DecidableEq

/-- `random.randint(lo, hi)` applied to an oracle value: a number in
`[lo, hi]`. -/
def randint (lo hi r : ℕ) : ℕ := lo + r % (hi + 1 - lo)

/-- `random.choice(l)` applied to an oracle value; `none` models the
`IndexError` Python raises on an empty sequence. -/
def choice {α : Type} (l : List α) (r : ℕ) : Option α := l.get? (r % l.length)

/-- Worker for `random.sample`: repeatedly pick an index and remove it.
The helpers thread the oracle cursor `rpos` explicitly; each operation
folds the final cursor back into the state when it stores its message. -/
def sample_go (rand : ℕ → ℕ) : ℕ → List Person → ℕ → List Person × ℕ
  | 0, _, rpos => ([], rpos)
  | k + 1, pop, rpos =>
    let r := rand rpos
    match pop.get? (r % pop.length) with
    | none => ([], rpos + 1)
    | some a =>
      let (rest, rpos) := sample_go rand k (pop.eraseIdx (r % pop.length)) (rpos + 1)
      (a :: rest, rpos)

/-- `random.sample(pop, k)`: `none` models the `ValueError` raised when
`k > len(pop)`. -/
def sample (rand : ℕ → ℕ) (pop : List Person) (k : ℕ) (rpos : ℕ) :
    Option (List Person) × ℕ :=
  if pop.length < k then (none, rpos)
  else
    let (xs, rpos) := sample_go rand k pop rpos
    (some xs, rpos)

/-- Opaque text from the external content provider (Faker fallback path);
the engine never inspects it. -/
def fake_text (r : ℕ) : Str := [Nat.digitChar (r % 10)]

/-- Presentational rendering of a timestamp inside body text
(`strftime`); the engine never inspects body text. -/
def date_str (d : ℕ) : Str := [Nat.digitChar (d % 10)]

/-- `_tick_time`: advance the virtual clock by a random 1–120 minute
increment and return the new time (with the advanced cursor). -/
def tick_time (rand : ℕ → ℕ) (currentDate rpos : ℕ) : ℕ × ℕ :=
  (currentDate + randint 1 120 (rand rpos), rpos + 1)

/-- `get_person_display`: format a person as `"Name <email>"`. -/
def get_person_display (p : Person) : Str := p.name ++ sepAngle ++ p.email ++ ['>']

/-- Display-format a parsed `(name, email)` pair (the
`f"{r['name']} <{r['email']}>"` pattern). -/
def display_pair (p : Str × Str) : Str := p.1 ++ sepAngle ++ p.2 ++ ['>']

/-- `self.threads[tid]`, recovered from the flat list. -/
def thread_msgs (gs : GenState) (tid : ℕ) : List Email :=
  gs.emails.filter (fun e => e.threadId == tid)

/-- `_get_thread_participants`: senders and recipients of a thread.  The code
builds a Python set; only membership and roster-order filtering are ever used,
so a list with duplicates is an equivalent model. -/
def get_thread_participants (gs : GenState) (tid : ℕ) : List Str :=
  (thread_msgs gs tid).flatMap (fun e => e.sender :: e.recipients)

/-- The email-address extraction inside `_get_available_recipients`
(`p.split(" <")[1].rstrip(">") if " <" in p else p`). -/
def extract_addr (p : Str) : Str :=
  if contains_sub sepAngle p then
    match split_on sepAngle p with
    | _ :: y :: _ => rstrip_gt y
    | _ => p
  else p

/-- `_get_available_recipients`: roster members whose email address is not a
participant address of the thread. -/
def get_available_recipients (gs : GenState) (tid : ℕ) : List Person :=
  let participant_emails := (get_thread_participants gs tid).map extract_addr
  gs.roster.filter (fun p => !(participant_emails.contains p.email))

/-- `_can_forward_to_new_recipients`. -/
def can_forward_to_new_recipients (gs : GenState) (tid : ℕ) : Bool :=
  !(get_available_recipients gs tid).isEmpty

/-- `_has_reply`. -/
def has_reply (gs : GenState) (message_id : ℕ) : Bool :=
  gs.repliedParentIds.contains message_id

/-- `_count_inclusive_emails`: the number of stored messages whose
`message_id` appears as no stored message's `parent_id`. -/
def count_inclusive_emails (gs : GenState) : ℕ :=
  let parent_message_ids := gs.emails.filterMap Email.parentId
  (gs.emails.filter (fun e => !(parent_message_ids.contains e.messageId))).length

/-- `_store_email` of `src/models/thread_generator.py`: append to the flat
list and the thread index, and record the parent as replied-to (set
semantics: no duplicate entries). -/
def store_email (gs : GenState) (e : Email) : GenState :=
  let gs := { gs with
    emails := gs.emails ++ [e],
    threadKeys :=
      if gs.threadKeys.contains e.threadId then gs.threadKeys
      else gs.threadKeys ++ [e.threadId] }
  match e.parentId with
  | some p =>
    { gs with repliedParentIds :=
        if gs.repliedParentIds.contains p then gs.repliedParentIds
        else gs.repliedParentIds ++ [p] }
  | none => gs

/-- `_store_email` of the legacy engine in `src/generate_emails.py`: same,
but with no replied-parent tracking. -/
def store_email_legacy (gs : GenState) (e : Email) : GenState :=
  { gs with
    emails := gs.emails ++ [e],
    threadKeys :=
      if gs.threadKeys.contains e.threadId then gs.threadKeys
      else gs.threadKeys ++ [e.threadId] }

/-- The five subject starters used when a topic is set. -/
def subject_starts : List Str :=
  ["Regarding".toList, "Update on".toList, "Question about".toList,
   "Notes for".toList, "Discussion:".toList]

/-- The five de-duplication suffixes. -/
def dedup_suffixes : List Str :=
  ["- Follow Up".toList, "- Continued".toList, "- Revisited".toList,
   "- Additional Thoughts".toList, "- Part II".toList]

/-- Root subject and body on the `llm is None` fallback path. -/
def root_subject_body (rand : ℕ → ℕ) (topic : Option Str) (rpos : ℕ) :
    (Str × Str) × ℕ :=
  match topic with
  | some t =>
    let subject := (choice subject_starts (rand rpos)).getD [] ++ [' '] ++ t
    let body_start := "Hi all,\n\nI wanted to discuss ".toList ++ t ++ ".".toList
    ((subject, body_start ++ "\n\n".toList ++ fake_text (rand (rpos + 1))), rpos + 2)
  | none =>
    ((fake_text (rand rpos), fake_text (rand (rpos + 1))), rpos + 2)

/-- The subject de-duplication fallback of `create_root_email`. -/
def dedup_subject (rand : ℕ → ℕ) (used : List Str) (subject : Str) (rpos : ℕ) :
    Str × ℕ :=
  if used.contains subject then
    (subject ++ [' '] ++ (choice dedup_suffixes (rand rpos)).getD [], rpos + 1)
  else (subject, rpos)

/-- `create_root_email`: pick a sender, sample 1–3 distinct recipients from
the roster minus the sender, build content, tick the clock once, allocate a
fresh `message_id` and a fresh `thread_id`, store.  `none` models the
uncaught exceptions (`IndexError` on an empty roster, `ValueError` when the
sample size exceeds the candidate pool). -/
def create_root_email (rand : ℕ → ℕ) (gs : GenState) : Option (Email × GenState) :=
  match choice gs.roster (rand gs.rpos) with
  | none => none
  | some sender =>
    let pop := gs.roster.filter (fun p => !(p == sender))
    let k := randint 1 3 (rand (gs.rpos + 1))
    match sample rand pop k (gs.rpos + 2) with
    | (none, _) => none
    | (some recipients, rpos) =>
      let ((subject0, body), rpos) := root_subject_body rand gs.topic rpos
      let (subject, rpos) := dedup_subject rand gs.usedSubjects subject0 rpos
      let (date, rpos) := tick_time rand gs.currentDate rpos
      let e : Email := {
        messageId := gs.ctr
        threadId := gs.ctr + 1
        parentId := none
        sender := get_person_display sender
        recipients := recipients.map get_person_display
        cc := []
        subject := subject
        body := body
        date := date
        type := .new
        references := []
        attachments := [] }
      some (e, store_email { gs with
        usedSubjects := gs.usedSubjects ++ [subject],
        currentDate := date, ctr := gs.ctr + 2, rpos := rpos } e)

/-- `reply_to` (with the default `reply_all=True`, which is how `simulate`
calls it): the reply's sender is a random parent recipient, its recipient the
parent's sender, the remaining parent recipients are CC'd, the subject gains
`"Re: "` unless already present, the parent body is quoted, the clock ticks
once, and the reply stays in the parent's thread. -/
def reply_to (rand : ℕ → ℕ) (gs : GenState) (parent_email : Email) :
    Option (Email × GenState) :=
  let parent_recipients := parent_email.recipients.map parse_display
  let parent_sender := parse_display parent_email.sender
  match choice parent_recipients (rand gs.rpos) with
  | none => none
  | some sender_info =>
    let rpos := gs.rpos + 1
    let roster_sender :=
      match gs.roster.find? (fun p => p.email == sender_info.2) with
      | some p => p
      | none =>
        { name := sender_info.1, email := sender_info.2,
          title := "Employee".toList, department := "General".toList }
    let cc_recipients :=
      if 1 < parent_recipients.length then
        parent_recipients.filter (fun r => !(r.2 == sender_info.2))
      else []
    let subject :=
      if starts_with "re:".toList (lower_str parent_email.subject) then
        parent_email.subject
      else "Re: ".toList ++ parent_email.subject
    let new_body := fake_text (rand rpos)
    let rpos := rpos + 1
    let (new_body, rpos) :=
      match gs.topic with
      | some t =>
        (if rand rpos % 100 < 20 then
          new_body ++ "\n\nRegarding the ".toList ++ t ++ " aspect, I agree.".toList
         else new_body, rpos + 1)
      | none => (new_body, rpos)
    let quoted_block :=
      List.intercalate "\n".toList
        ((split_on "\n".toList parent_email.body).map (fun line => "> ".toList ++ line))
    let full_body :=
      new_body ++ "\n\nOn ".toList ++ date_str parent_email.date ++ ", ".toList ++
        parent_email.sender ++ " wrote:\n".toList ++ quoted_block
    let (date, rpos) := tick_time rand gs.currentDate rpos
    let e : Email := {
      messageId := gs.ctr
      threadId := parent_email.threadId
      parentId := some parent_email.messageId
      sender := get_person_display roster_sender
      recipients := [display_pair parent_sender]
      cc := cc_recipients.map display_pair
      subject := subject
      body := full_body
      date := date
      type := .reply
      references := parent_email.references ++ [parent_email.messageId]
      attachments := [] }
    some (e, store_email { gs with
      currentDate := date, ctr := gs.ctr + 1, rpos := rpos } e)

/-- The `"---------- Forwarded message ----------"` block. -/
def forward_block (parent_email : Email) : Str :=
  "---------- Forwarded message ----------\nFrom: ".toList ++ parent_email.sender ++
    "\nDate: ".toList ++ date_str parent_email.date ++
    "\nSubject: ".toList ++ parent_email.subject ++
    "\nTo: ".toList ++ List.intercalate ", ".toList parent_email.recipients ++
    "\n\n".toList ++ parent_email.body

/-- `forward` of `src/models/thread_generator.py`: sender drawn from thread
participants when possible, recipient drawn from roster members *not* in the
thread (with the code's fallback to an arbitrary roster member when none
exist), subject gains `"Fwd: "`, the parent body is embedded, attachments are
carried over, the clock ticks once, and — the important part — a **fresh**
`thread_id` is allocated. -/
def forward (rand : ℕ → ℕ) (gs : GenState) (parent_email : Email) :
    Option (Email × GenState) :=
  let thread_participants := get_thread_participants gs parent_email.threadId
  let participant_emails := thread_participants.map (fun p => (parse_display p).2)
  let roster_participants :=
    gs.roster.filter (fun p => participant_emails.contains p.email)
  match (if roster_participants.isEmpty then choice gs.roster (rand gs.rpos)
         else choice roster_participants (rand gs.rpos)) with
  | none => none
  | some sender =>
    let rpos := gs.rpos + 1
    let potential_recipients :=
      gs.roster.filter (fun p => !(thread_participants.contains (get_person_display p)))
    let (potentialOpt, rpos) :=
      if potential_recipients.isEmpty then
        (match choice gs.roster (rand rpos) with
         | some q => some [q]
         | none => none, rpos + 1)
      else (some potential_recipients, rpos)
    match potentialOpt with
    | none => none
    | some potential =>
      match choice potential (rand rpos) with
      | none => none
      | some recipient =>
        let rpos := rpos + 1
        let subject :=
          if starts_with "fwd:".toList (lower_str parent_email.subject) then
            parent_email.subject
          else "Fwd: ".toList ++ parent_email.subject
        let new_body := "FYI.".toList
        let (new_body, rpos) :=
          match gs.topic with
          | some t =>
            (if rand rpos % 100 < 30 then
              "Thought you should see this regarding ".toList ++ t ++ ".\n\n".toList ++
                new_body
             else new_body, rpos + 1)
          | none => (new_body, rpos)
        let full_body := new_body ++ "\n\n".toList ++ forward_block parent_email
        let new_thread_id := gs.ctr
        let (date, rpos) := tick_time rand gs.currentDate rpos
        let e : Email := {
          messageId := gs.ctr + 1
          threadId := new_thread_id
          parentId := some parent_email.messageId
          sender := get_person_display sender
          recipients := [get_person_display recipient]
          cc := []
          subject := subject
          body := full_body
          date := date
          type := .forward
          references := parent_email.references ++ [parent_email.messageId]
          attachments := parent_email.attachments }
        some (e, store_email { gs with
          currentDate := date, ctr := gs.ctr + 2, rpos := rpos } e)

/-- `forward` of the legacy engine in `src/generate_emails.py`
(lines 364–440): identical flow, except that the created email keeps the
**parent's** `thread_id` (`thread_id=parent_email.thread_id`) and the legacy
`_store_email` does no replied-parent tracking. -/
def forward_legacy (rand : ℕ → ℕ) (gs : GenState) (parent_email : Email) :
    Option (Email × GenState) :=
  let thread_participants := get_thread_participants gs parent_email.threadId
  let participant_emails := thread_participants.map extract_addr
  let roster_participants :=
    gs.roster.filter (fun p => participant_emails.contains p.email)
  match (if roster_participants.isEmpty then choice gs.roster (rand gs.rpos)
         else choice roster_participants (rand gs.rpos)) with
  | none => none
  | some sender =>
    let rpos := gs.rpos + 1
    let potential_recipients :=
      gs.roster.filter (fun p => !(thread_participants.contains (get_person_display p)))
    let (potentialOpt, rpos) :=
      if potential_recipients.isEmpty then
        (match choice gs.roster (rand rpos) with
         | some q => some [q]
         | none => none, rpos + 1)
      else (some potential_recipients, rpos)
    match potentialOpt with
    | none => none
    | some potential =>
      match choice potential (rand rpos) with
      | none => none
      | some recipient =>
        let rpos := rpos + 1
        let subject :=
          if starts_with "fwd:".toList (lower_str parent_email.subject) then
            parent_email.subject
          else "Fwd: ".toList ++ parent_email.subject
        let new_body := "FYI.".toList
        let (new_body, rpos) :=
          match gs.topic with
          | some t =>
            (if rand rpos % 100 < 30 then
              "Thought you should see this regarding ".toList ++ t ++ ".\n\n".toList ++
                new_body
             else new_body, rpos + 1)
          | none => (new_body, rpos)
        let full_body := new_body ++ "\n\n".toList ++ forward_block parent_email
        let (date, rpos) := tick_time rand gs.currentDate rpos
        let e : Email := {
          messageId := gs.ctr
          threadId := parent_email.threadId
          parentId := some parent_email.messageId
          sender := get_person_display sender
          recipients := [get_person_display recipient]
          cc := []
          subject := subject
          body := full_body
          date := date
          type := .forward
          references := parent_email.references ++ [parent_email.messageId]
          attachments := parent_email.attachments }
        some (e, store_email_legacy { gs with
          currentDate := date, ctr := gs.ctr + 1, rpos := rpos } e)

/-! The `simulate` loop of `src/models/thread_generator.py`, with its default
parameters (`max_emails_per_thread=9`, `early_end_chance=0.15`), as a
small-step relation: one step is either one outer-loop iteration (root
creation and per-thread target choice) or one inner-loop iteration. -/

/-- The weighted action draw (`random.choices(["reply", "forward",
"nothing"], weights=[0.8, 0.1, 0.1])`). -/
inductive SimAction
  | reply
  | fwd
  | nothing
deriving DecidableEq, Repr

/-- Oracle value to action, matching the default weights. -/
def pick_action (r : ℕ) : SimAction :=
  if r % 10 < 8 then .reply else if r % 10 = 8 then .fwd else .nothing

/-- The simulation loop position: `none` between threads (outer loop),
`some (tid, target_len)` while growing thread `tid`. -/
structure SimSt where
  gs : GenState
  cur : Option (ℕ × ℕ)
deriving DecidableEq

/-- One step result: continue, return normally, or raise. -/
inductive StepRes
  | next (st : SimSt)
  | done (gs : GenState)
  | err
deriving DecidableEq

/-- The parent selection of the inner loop: the most recent message of the
thread that has not been replied to. -/
def open_tip (gs : GenState) (tid : ℕ) : Option Email :=
  ((thread_msgs gs tid).filter (fun m => !(has_reply gs m.messageId))).getLast?

/-- The selected action of one inner-loop iteration: the weighted draw,
downgraded from `forward` to `reply` when no new recipients are available. -/
def chosen_action (rand : ℕ → ℕ) (gs : GenState) (tid : ℕ) : SimAction :=
  match pick_action (rand gs.rpos) with
  | SimAction.fwd =>
    if can_forward_to_new_recipients gs tid then SimAction.fwd else SimAction.reply
  | a => a

def sim_inner (rand : ℕ → ℕ) (gs : GenState) (tid tlen : ℕ) : StepRes :=
  match open_tip gs tid with
  | none => .next ⟨gs, none⟩
  | some parent =>
    match chosen_action rand gs tid with
    | .reply =>
      match reply_to rand { gs with rpos := gs.rpos + 1 } parent with
      | none => .err
      | some (_, gs') => .next ⟨gs', some (tid, tlen)⟩
    | .fwd =>
      match forward rand { gs with rpos := gs.rpos + 1 } parent with
      | none => .err
      | some (_, gs') => .next ⟨gs', some (tid, tlen)⟩
    | .nothing => .next ⟨{ gs with rpos := gs.rpos + 1 }, some (tid, tlen)⟩

/-- One step of `simulate(target_inclusive, 9, 0.15)`. -/
def sim_step (rand : ℕ → ℕ) (target_inclusive : ℕ) (st : SimSt) : StepRes :=
  match st.cur with
  | none =>
    if target_inclusive ≤ count_inclusive_emails st.gs then .done st.gs
    else
      match create_root_email rand st.gs with
      | none => .err
      | some (_, gs) =>
        match gs.threadKeys.getLast? with
        | none => .err
        | some tid =>
          .next ⟨{ gs with rpos := gs.rpos + 1 }, some (tid, randint 2 9 (rand gs.rpos))⟩
  | some (tid, tlen) =>
    if count_inclusive_emails st.gs < target_inclusive ∧
        (thread_msgs st.gs tid).length < tlen then
      if 2 ≤ (thread_msgs st.gs tid).length then
        if rand st.gs.rpos % 100 < 15 then
          .next ⟨{ st.gs with rpos := st.gs.rpos + 1 }, none⟩
        else sim_inner rand { st.gs with rpos := st.gs.rpos + 1 } tid tlen
      else sim_inner rand st.gs tid tlen
    else .next ⟨st.gs, none⟩

/-- Run `n` steps, stopping at `done`/`err`. -/
def sim_run (rand : ℕ → ℕ) (target : ℕ) : ℕ → SimSt → StepRes
  | 0, st => .next st
  | n + 1, st =>
    match sim_step rand target st with
    | .next st' => sim_run rand target n st'
    | r => r

/-- The state after exactly `n` non-final steps (`none` if the run finished
or raised earlier). -/
def iter_step (rand : ℕ → ℕ) (target : ℕ) : ℕ → SimSt → Option SimSt
  | 0, st => some st
  | n + 1, st =>
    match sim_step rand target st with
    | .next st' => iter_step rand target n st'
    | _ => none

/-- A fresh `ThreadGenerator` (with a supplied roster, as `__main__` does). -/
def init_state (roster : List Person) (topic : Option Str) (start_date : ℕ) : GenState :=
  { emails := [], threadKeys := [], repliedParentIds := [], usedSubjects := [],
    currentDate := start_date, roster := roster, topic := topic, ctr := 0, rpos := 0 }

/-- The initial simulation position. -/
def init_sim (roster : List Person) (topic : Option Str) (start_date : ℕ) : SimSt :=
  ⟨init_state roster topic start_date, none⟩

/-- Simulation states reachable from `st0`. -/
def Reachable (rand : ℕ → ℕ) (target : ℕ) (st0 st : SimSt) : Prop :=
  ∃ n, iter_step rand target n st0 = some st

/-! Invariants of the engine state. -/

/-- The stored `message_id`s, in order. -/
def mids (gs : GenState) : List ℕ := gs.emails.map Email.messageId

/-- The stored non-null `parent_id`s, in order (with multiplicity). -/
def pids (gs : GenState) : List ℕ := gs.emails.filterMap Email.parentId

/-- Consecutive stored messages are 1–120 minutes apart. -/
def dates_ok : List Email → Bool
  | [] => true
  | [_] => true
  | a :: b :: rest =>
    decide (a.date + 1 ≤ b.date) && decide (b.date ≤ a.date + 120) && dates_ok (b :: rest)

/-- Parent links agree with threads: a non-forward child shares its parent's
`thread_id`, a forward never does. -/
def thread_coherent (gs : GenState) : Bool :=
  gs.emails.all fun e =>
    match e.parentId with
    | none => true
    | some p =>
      gs.emails.all fun e2 =>
        if e2.messageId == p then
          match e.type with
          | .forward => e2.threadId != e.threadId
          | _ => e2.threadId == e.threadId
        else true

/-- The engine-state invariant maintained by every `simulate` step. -/
structure EngineInv (gs : GenState) : Prop where
  nodupMids : (mids gs).Nodup
  midLtCtr : ∀ e ∈ gs.emails, e.messageId < gs.ctr
  tidLtCtr : ∀ e ∈ gs.emails, e.threadId < gs.ctr
  parentsKnown : ∀ e ∈ gs.emails, ∀ p ∈ e.parentId.toList, p ∈ mids gs
  repliedSub : ∀ x ∈ gs.repliedParentIds, x ∈ pids gs
  pidsSub : ∀ x ∈ pids gs, x ∈ gs.repliedParentIds
  nodupPids : (pids gs).Nodup
  recipsNE : ∀ e ∈ gs.emails, e.recipients ≠ []
  datesOk : dates_ok gs.emails = true
  lastDate : ∀ e ∈ gs.emails.getLast?.toList, e.date = gs.currentDate
  coherent : thread_coherent gs = true
  keysLt : ∀ t ∈ gs.threadKeys, t < gs.ctr

/-- The loop-position invariant on top of `EngineInv`. -/
structure SimInv (st : SimSt) : Prop where
  eng : EngineInv st.gs
  curBounds : ∀ c ∈ st.cur.toList, 2 ≤ c.2 ∧ c.2 ≤ 9

/-! The inclusive count as a function of list lengths. -/

theorem length_filter_contains_of_sub {emails : List Email} {P : List ℕ}
    (h1 : (emails.map Email.messageId).Nodup)
    (h2 : ∀ x ∈ P, x ∈ emails.map Email.messageId) :
    (emails.filter (fun e => P.contains e.messageId)).length = P.dedup.length := by
  have hmap :
      (emails.filter (fun e => P.contains e.messageId)).length =
        ((emails.map Email.messageId).filter (fun x => P.contains x)).length := by
    rw [← List.countP_eq_length_filter, ← List.countP_eq_length_filter, List.countP_map]
    rfl
  rw [hmap]
  have hnd : ((emails.map Email.messageId).filter (fun x => P.contains x)).Nodup :=
    h1.filter _
  have hmem : ∀ x, x ∈ (emails.map Email.messageId).filter (fun x => P.contains x) ↔
      x ∈ P.dedup := by
    intro x
    rw [List.mem_filter, List.mem_dedup, List.elem_iff]
    constructor
    · exact fun h => h.2
    · exact fun h => ⟨h2 x h, h⟩
  rw [← List.toFinset_card_of_nodup hnd, ← List.toFinset_card_of_nodup (List.nodup_dedup P)]
  congr 1
  ext x
  simp only [List.mem_toFinset]
  exact hmem x

theorem count_inclusive_add (gs : GenState)
    (h1 : (mids gs).Nodup) (h2 : ∀ x ∈ pids gs, x ∈ mids gs) :
    count_inclusive_emails gs + (pids gs).dedup.length = gs.emails.length := by
  have hsplit := @List.length_eq_length_filter_add _ gs.emails
    (fun e => (pids gs).contains e.messageId)
  have hc := @length_filter_contains_of_sub gs.emails (pids gs) h1 h2
  have hco : count_inclusive_emails gs =
      (gs.emails.filter (fun e => !((pids gs).contains e.messageId))).length := rfl
  omega

/-! A common shape for the three message-creating operations. -/

/-- What every successful message-creating operation does to the state. -/
structure OpShape (gs : GenState) (e : Email) (gs' : GenState) : Prop where
  emails : gs'.emails = gs.emails ++ [e]
  roster : gs'.roster = gs.roster
  topicEq : gs'.topic = gs.topic
  repliedNone : e.parentId = none → gs'.repliedParentIds = gs.repliedParentIds
  repliedSome : ∀ p, e.parentId = some p →
    gs'.repliedParentIds =
      if gs.repliedParentIds.contains p then gs.repliedParentIds
      else gs.repliedParentIds ++ [p]
  keys : gs'.threadKeys =
    if gs.threadKeys.contains e.threadId then gs.threadKeys
    else gs.threadKeys ++ [e.threadId]
  ctrLt : gs.ctr < gs'.ctr
  midGe : gs.ctr ≤ e.messageId
  midLt : e.messageId < gs'.ctr
  dateEq : e.date = gs'.currentDate
  dateLo : gs.currentDate + 1 ≤ gs'.currentDate
  dateHi : gs'.currentDate ≤ gs.currentDate + 120
  recipsNE : e.recipients ≠ []

/-! Properties of `random.sample`. -/

theorem getElem_not_mem_eraseIdx (l : List Person) (i : ℕ) (h : i < l.length)
    (hn : l.Nodup) : l[i] ∉ l.eraseIdx i := by
  intro hmem
  rw [List.eraseIdx_eq_take_drop_succ] at hmem
  have hdrop : l[i] :: l.drop (i + 1) = l.drop i := List.getElem_cons_drop l i h
  have hsum : (l.take i).count l[i] + (l.drop i).count l[i] = l.count l[i] := by
    rw [← List.count_append, List.take_append_drop]
  have hcnt : l.count l[i] = 1 := List.count_eq_one_of_mem hn (l.getElem_mem h)
  rw [← hdrop, List.count_cons_self] at hsum
  rcases List.mem_append.mp hmem with hm | hm
  · have h1 : 0 < (l.take i).count l[i] := List.count_pos_iff.mpr hm
    omega
  · have h1 : 0 < (l.drop (i + 1)).count l[i] := List.count_pos_iff.mpr hm
    omega

theorem sample_go_spec (rand : ℕ → ℕ) :
    ∀ (k : ℕ) (pop : List Person) (rpos : ℕ), k ≤ pop.length →
      (sample_go rand k pop rpos).1.length = k ∧
      (∀ x ∈ (sample_go rand k pop rpos).1, x ∈ pop) ∧
      (pop.Nodup → (sample_go rand k pop rpos).1.Nodup) := by
  intro k
  induction k with
  | zero => simp [sample_go]
  | succ k ih =>
    intro pop rpos hk
    have hpos : 0 < pop.length := by omega
    have hlt : rand rpos % pop.length < pop.length := Nat.mod_lt _ hpos
    have hget : pop.get? (rand rpos % pop.length) = some pop[rand rpos % pop.length] := by
      rw [List.get?_eq_getElem?, List.getElem?_eq_getElem hlt]
    have hklen : k ≤ (pop.eraseIdx (rand rpos % pop.length)).length := by
      rw [List.length_eraseIdx_of_lt hlt]
      omega
    obtain ⟨ihl, ihm, ihn⟩ := ih (pop.eraseIdx (rand rpos % pop.length)) (rpos + 1) hklen
    simp only [sample_go, hget]
    constructor
    · simp [ihl]
    constructor
    · intro x hx
      simp only [List.mem_cons] at hx
      rcases hx with rfl | hx
      · exact pop.getElem_mem hlt
      · exact List.mem_of_mem_eraseIdx (ihm x hx)
    · intro hnd
      refine List.nodup_cons.mpr ⟨?_, ihn (hnd.sublist (List.eraseIdx_sublist pop _))⟩
      intro hmem
      exact getElem_not_mem_eraseIdx pop _ hlt hnd (ihm _ hmem)

/-! Shape lemmas: each message-creating operation yields an `OpShape`. -/

theorem create_root_shape (rand : ℕ → ℕ) (gs : GenState) (e : Email) (gs' : GenState)
    (h : create_root_email rand gs = some (e, gs')) :
    OpShape gs e gs' ∧ e.parentId = none ∧ e.type = .new ∧
      e.messageId = gs.ctr ∧ e.threadId = gs.ctr + 1 ∧ gs'.ctr = gs.ctr + 2 := by
  unfold create_root_email at h
  split at h
  next => exact absurd h (by simp)
  next sender hc =>
    simp only [sample, root_subject_body, dedup_subject, tick_time, store_email] at h
    split at h
    next => exact absurd h (by simp)
    next recips rposA hpair =>
      split at hpair
      next hlen => exact absurd hpair (by simp)
      next hlen =>
        rw [Nat.not_lt] at hlen
        rw [Prod.mk.injEq, Option.some_inj] at hpair
        obtain ⟨hrec, hrposA⟩ := hpair
        have hxs : recips ≠ [] := by
          have hspec := (sample_go_spec rand (randint 1 3 (rand (gs.rpos + 1)))
            (gs.roster.filter (fun p => !(p == sender))) (gs.rpos + 2) hlen).1
          rw [hrec] at hspec
          intro hnil
          rw [hnil] at hspec
          simp only [List.length_nil, randint] at hspec
          omega
        rw [Option.some_inj, Prod.mk.injEq] at h
        obtain ⟨he, hgs⟩ := h
        subst he
        subst hgs
        refine ⟨⟨by simp, by simp, by simp, by simp, by simp, by simp,
          by simp, by simp, by simp, by simp,
          by simp only [randint]; omega, by simp only [randint]; omega,
          by simpa using hxs⟩, by simp, by simp, by simp, by simp, by simp⟩

theorem reply_to_shape (rand : ℕ → ℕ) (gs : GenState) (parent_email e : Email)
    (gs' : GenState) (h : reply_to rand gs parent_email = some (e, gs')) :
    OpShape gs e gs' ∧ e.parentId = some parent_email.messageId ∧
      e.threadId = parent_email.threadId ∧ e.type = .reply ∧
      e.messageId = gs.ctr ∧ gs'.ctr = gs.ctr + 1 := by
  unfold reply_to at h
  simp only [tick_time, store_email] at h
  split at h
  next => exact absurd h (by simp)
  next sender_info hc =>
    split at h <;>
    · rw [Option.some_inj, Prod.mk.injEq] at h
      obtain ⟨he, hgs⟩ := h
      subst he
      subst hgs
      refine ⟨⟨by simp, by simp, by simp, by simp, ?_, by simp,
        by simp, by simp, by simp, by simp,
        by simp only [randint]; omega, by simp only [randint]; omega,
        by simp⟩, by simp, by simp, by simp, by simp, by simp⟩
      intro p hpeq
      rw [Option.some_inj] at hpeq
      subst hpeq
      simp

theorem forward_shape (rand : ℕ → ℕ) (gs : GenState) (parent_email e : Email)
    (gs' : GenState) (h : forward rand gs parent_email = some (e, gs')) :
    OpShape gs e gs' ∧ e.parentId = some parent_email.messageId ∧
      e.threadId = gs.ctr ∧ e.type = .forward ∧
      e.messageId = gs.ctr + 1 ∧ gs'.ctr = gs.ctr + 2 := by
  unfold forward at h
  simp only [tick_time, store_email] at h
  split at h
  next => exact absurd h (by simp)
  next sender hc =>
    split at h
    next => exact absurd h (by simp)
    next potential hpot =>
      split at h
      next => exact absurd h (by simp)
      next recipient hrec =>
        split at h <;>
        · rw [Option.some_inj, Prod.mk.injEq] at h
          obtain ⟨he, hgs⟩ := h
          subst he
          subst hgs
          refine ⟨⟨by simp, by simp, by simp, by simp, ?_, by simp,
            by simp, by simp, by simp, by simp,
            by simp only [randint]; omega, by simp only [randint]; omega,
            by simp⟩, by simp, by simp, by simp, by simp, by simp⟩
          intro p hpeq
          rw [Option.some_inj] at hpeq
          subst hpeq
          simp

/-! Preservation of `EngineInv` under a stored message. -/

theorem contains_true_iff {α : Type} [BEq α] [LawfulBEq α] {l : List α} {a : α} :
    l.contains a = true ↔ a ∈ l := List.elem_iff

theorem mids_append {gs gs' : GenState} {e : Email} (h : gs'.emails = gs.emails ++ [e]) :
    mids gs' = mids gs ++ [e.messageId] := by
  unfold mids
  rw [h, List.map_append]
  rfl

theorem pids_append {gs gs' : GenState} {e : Email} (h : gs'.emails = gs.emails ++ [e]) :
    pids gs' = pids gs ++ e.parentId.toList := by
  unfold pids
  rw [h, List.filterMap_append]
  cases hp : e.parentId <;> simp [hp]

theorem dates_ok_append (l : List Email) (e : Email) (h : dates_ok l = true)
    (hlast : ∀ x, l.getLast? = some x → x.date + 1 ≤ e.date ∧ e.date ≤ x.date + 120) :
    dates_ok (l ++ [e]) = true := by
  induction l with
  | nil => simp [dates_ok]
  | cons a l ih =>
    cases l with
    | nil =>
      have := hlast a (by simp)
      simp only [List.cons_append, List.nil_append, dates_ok, Bool.and_eq_true,
        decide_eq_true_eq]
      exact ⟨⟨this.1, this.2⟩, trivial⟩
    | cons b rest =>
      simp only [dates_ok, Bool.and_eq_true, decide_eq_true_eq] at h
      have hih := ih h.2 (fun x hx => hlast x (by rw [List.getLast?_cons_cons]; exact hx))
      simp only [List.cons_append, dates_ok, Bool.and_eq_true, decide_eq_true_eq]
      constructor
      · exact ⟨h.1.1, h.1.2⟩
      · simpa using hih

theorem thread_coherent_iff (gs : GenState) :
    thread_coherent gs = true ↔
      ∀ e ∈ gs.emails, ∀ p, e.parentId = some p →
        ∀ e2 ∈ gs.emails, e2.messageId = p →
          (e.type = .forward → e2.threadId ≠ e.threadId) ∧
          (e.type ≠ .forward → e2.threadId = e.threadId) := by
  unfold thread_coherent
  rw [List.all_eq_true]
  constructor
  · intro h e he p hp e2 he2 hm
    have h1 := h e he
    rw [hp, List.all_eq_true] at h1
    have h2 := h1 e2 he2
    simp only [hm, beq_self_eq_true, if_true] at h2
    cases ht : e.type <;> rw [ht] at h2 <;> simp only at h2
    · exact ⟨fun hc => by simp [ht] at hc, fun _ => by simpa using h2⟩
    · exact ⟨fun hc => by simp [ht] at hc, fun _ => by simpa using h2⟩
    · exact ⟨fun _ => by simpa using h2, fun hc => absurd rfl hc⟩
  · intro h e he
    cases hp : e.parentId with
    | none => simp
    | some p =>
      simp only [List.all_eq_true]
      intro e2 he2
      by_cases hm : e2.messageId = p
      · simp only [hm, beq_self_eq_true, if_true]
        have := h e he p hp e2 he2 hm
        cases ht : e.type
        · simpa using this.2 (by simp [ht])
        · simpa using this.2 (by simp [ht])
        · simpa using this.1 (by simp [ht])
      · simp [hm]

theorem op_preserves_inv {gs : GenState} {e : Email} {gs' : GenState}
    (inv : EngineInv gs) (hs : OpShape gs e gs') (htid : e.threadId < gs'.ctr)
    (hpar : ∀ p, e.parentId = some p →
      p ∈ mids gs ∧ p ∉ gs.repliedParentIds ∧
        ∀ e2 ∈ gs.emails, e2.messageId = p →
          (e.type = .forward → e2.threadId ≠ e.threadId) ∧
          (e.type ≠ .forward → e2.threadId = e.threadId)) :
    EngineInv gs' := by
  have hm := mids_append hs.emails
  have hp := pids_append hs.emails
  have hfresh : e.messageId ∉ mids gs := by
    intro hmem
    have := inv.midLtCtr
    unfold mids at hmem
    obtain ⟨e2, he2, hme⟩ := List.mem_map.mp hmem
    have := inv.midLtCtr e2 he2
    have := hs.midGe
    omega
  constructor
  case nodupMids =>
    rw [hm]
    rw [List.nodup_append]
    exact ⟨inv.nodupMids, List.nodup_singleton _, by
      intro x hx hx2
      simp only [List.mem_singleton] at hx2
      subst hx2
      exact hfresh hx⟩
  case midLtCtr =>
    intro e2 he2
    rw [hs.emails] at he2
    rcases List.mem_append.mp he2 with h2 | h2
    · have := inv.midLtCtr e2 h2
      have := hs.ctrLt
      omega
    · simp only [List.mem_singleton] at h2
      subst h2
      exact hs.midLt
  case tidLtCtr =>
    intro e2 he2
    rw [hs.emails] at he2
    rcases List.mem_append.mp he2 with h2 | h2
    · have := inv.tidLtCtr e2 h2
      have := hs.ctrLt
      omega
    · simp only [List.mem_singleton] at h2
      subst h2
      exact htid
  case parentsKnown =>
    intro e2 he2 p hp2
    rw [hs.emails] at he2
    rw [hm]
    rcases List.mem_append.mp he2 with h2 | h2
    · exact List.mem_append_left _ (inv.parentsKnown e2 h2 p hp2)
    · simp only [List.mem_singleton] at h2
      subst h2
      simp only [Option.toList] at hp2
      cases hpe : e2.parentId with
      | none => rw [hpe] at hp2; simp at hp2
      | some q =>
        rw [hpe] at hp2
        simp only [List.mem_singleton] at hp2
        subst hp2
        exact List.mem_append_left _ (hpar p hpe).1
  case repliedSub =>
    intro x hx
    rw [hp]
    cases hpe : e.parentId with
    | none =>
      rw [hs.repliedNone hpe] at hx
      exact List.mem_append_left _ (inv.repliedSub x hx)
    | some p =>
      rw [hs.repliedSome p hpe] at hx
      split at hx
      · exact List.mem_append_left _ (inv.repliedSub x hx)
      · rcases List.mem_append.mp hx with h2 | h2
        · exact List.mem_append_left _ (inv.repliedSub x h2)
        · simp only [List.mem_singleton] at h2
          subst h2
          simp
  case pidsSub =>
    intro x hx
    rw [hp] at hx
    cases hpe : e.parentId with
    | none =>
      rw [hpe] at hx
      simp only [Option.toList, List.append_nil] at hx
      rw [hs.repliedNone hpe]
      exact inv.pidsSub x hx
    | some p =>
      rw [hpe] at hx
      rw [hs.repliedSome p hpe]
      rcases List.mem_append.mp hx with h2 | h2
      · have hin := inv.pidsSub x h2
        split
        · exact hin
        · exact List.mem_append_left _ hin
      · simp only [Option.toList, List.mem_singleton] at h2
        subst h2
        split
        next hcon => exact contains_true_iff.mp hcon
        next => simp
  case nodupPids =>
    rw [hp]
    cases hpe : e.parentId with
    | none => simpa using inv.nodupPids
    | some p =>
      simp only [Option.toList]
      rw [List.nodup_append]
      refine ⟨inv.nodupPids, List.nodup_singleton _, ?_⟩
      intro x hx hx2
      simp only [List.mem_singleton] at hx2
      subst hx2
      exact (hpar x hpe).2.1 (inv.pidsSub x hx)
  case recipsNE =>
    intro e2 he2
    rw [hs.emails] at he2
    rcases List.mem_append.mp he2 with h2 | h2
    · exact inv.recipsNE e2 h2
    · simp only [List.mem_singleton] at h2
      subst h2
      exact hs.recipsNE
  case datesOk =>
    rw [hs.emails]
    refine dates_ok_append _ _ inv.datesOk ?_
    intro x hx
    have hd := inv.lastDate x (by rw [hx]; simp)
    have := hs.dateLo
    have := hs.dateHi
    have := hs.dateEq
    omega
  case lastDate =>
    intro x hx
    rw [hs.emails, List.getLast?_concat] at hx
    simp only [Option.toList, List.mem_singleton] at hx
    subst hx
    exact hs.dateEq
  case coherent =>
    rw [thread_coherent_iff]
    have hold := (thread_coherent_iff gs).mp inv.coherent
    intro e1 he1 p hp1 e2 he2 hm2
    rw [hs.emails] at he1 he2
    rcases List.mem_append.mp he1 with h1 | h1 <;>
      rcases List.mem_append.mp he2 with h2 | h2
    · exact hold e1 h1 p hp1 e2 h2 hm2
    · -- old parent link cannot point at the fresh message
      simp only [List.mem_singleton] at h2
      subst h2
      have hpin := inv.parentsKnown e1 h1 p (by rw [hp1]; simp)
      exfalso
      unfold mids at hpin
      obtain ⟨e3, he3, hme3⟩ := List.mem_map.mp hpin
      have := inv.midLtCtr e3 he3
      have := hs.midGe
      omega
    · simp only [List.mem_singleton] at h1
      subst h1
      exact (hpar p hp1).2.2 e2 h2 hm2
    · simp only [List.mem_singleton] at h1 h2
      subst h1
      subst h2
      exfalso
      have hpin := (hpar p hp1).1
      unfold mids at hpin
      obtain ⟨e3, he3, hme3⟩ := List.mem_map.mp hpin
      have := inv.midLtCtr e3 he3
      have := hs.midGe
      omega
  case keysLt =>
    intro t ht
    rw [hs.keys] at ht
    split at ht
    · have := inv.keysLt t ht
      have := hs.ctrLt
      omega
    · rcases List.mem_append.mp ht with h2 | h2
      · have := inv.keysLt t h2
        have := hs.ctrLt
        omega
      · simp only [List.mem_singleton] at h2
        subst h2
        exact htid

/-! Step-level preservation. -/

theorem engine_inv_rpos {gs : GenState} {n : ℕ} (inv : EngineInv gs) :
    EngineInv { gs with rpos := n } := by
  obtain ⟨h1, h2, h3, h4, h5, h6, h7, h8, h9, h10, h11, h12⟩ := inv
  exact ⟨h1, h2, h3, h4, h5, h6, h7, h8, h9, h10, h11, h12⟩

theorem open_tip_spec {gs : GenState} {tid : ℕ} {m : Email}
    (h : open_tip gs tid = some m) :
    m ∈ gs.emails ∧ m.threadId = tid ∧ m.messageId ∉ gs.repliedParentIds := by
  unfold open_tip at h
  have hmem := List.mem_of_mem_getLast? h
  rw [List.mem_filter] at hmem
  obtain ⟨hm1, hm2⟩ := hmem
  unfold thread_msgs at hm1
  rw [List.mem_filter] at hm1
  refine ⟨hm1.1, by simpa using hm1.2, ?_⟩
  intro hin
  unfold has_reply at hm2
  rw [Bool.not_eq_eq_eq_not, Bool.not_true] at hm2
  rw [← @contains_true_iff ℕ _ _ gs.repliedParentIds m.messageId] at hin
  rw [hm2] at hin
  exact Bool.false_ne_true hin

/-- The unique stored email with a given stored `message_id` (used to turn
`e2.messageId = parent.messageId` into `e2 = parent`). -/
theorem mid_inj {gs : GenState} (inv : EngineInv gs) {a b : Email}
    (ha : a ∈ gs.emails) (hb : b ∈ gs.emails) (h : a.messageId = b.messageId) :
    a = b :=
  List.inj_on_of_nodup_map inv.nodupMids ha hb h

theorem reply_hpar {gs : GenState} {parent e : Email} (inv : EngineInv gs)
    (hparent : parent ∈ gs.emails) (hopen : parent.messageId ∉ gs.repliedParentIds)
    (hpid : e.parentId = some parent.messageId) (htid : e.threadId = parent.threadId)
    (hty : e.type = .reply) :
    ∀ p, e.parentId = some p →
      p ∈ mids gs ∧ p ∉ gs.repliedParentIds ∧
        ∀ e2 ∈ gs.emails, e2.messageId = p →
          (e.type = .forward → e2.threadId ≠ e.threadId) ∧
          (e.type ≠ .forward → e2.threadId = e.threadId) := by
  intro p hp
  rw [hpid, Option.some_inj] at hp
  subst hp
  refine ⟨List.mem_map_of_mem Email.messageId hparent, hopen, ?_⟩
  intro e2 he2 hm2
  have he2p : e2 = parent := mid_inj inv he2 hparent hm2
  constructor
  · intro hf
    rw [hty] at hf
    exact absurd hf (by simp)
  · intro _
    rw [htid, he2p]

theorem forward_hpar {gs : GenState} {parent e : Email} (inv : EngineInv gs)
    (hparent : parent ∈ gs.emails) (hopen : parent.messageId ∉ gs.repliedParentIds)
    (hpid : e.parentId = some parent.messageId) (htid : e.threadId = gs.ctr)
    (hty : e.type = .forward) :
    ∀ p, e.parentId = some p →
      p ∈ mids gs ∧ p ∉ gs.repliedParentIds ∧
        ∀ e2 ∈ gs.emails, e2.messageId = p →
          (e.type = .forward → e2.threadId ≠ e.threadId) ∧
          (e.type ≠ .forward → e2.threadId = e.threadId) := by
  intro p hp
  rw [hpid, Option.some_inj] at hp
  subst hp
  refine ⟨List.mem_map_of_mem Email.messageId hparent, hopen, ?_⟩
  intro e2 he2 hm2
  constructor
  · intro _
    have hlt := inv.tidLtCtr e2 he2
    rw [htid]
    omega
  · intro hnf
    exact absurd hty hnf

theorem sim_inner_preserves {rand : ℕ → ℕ} {gs : GenState} {tid tlen : ℕ}
    {st' : SimSt} (inv : EngineInv gs) (hb : 2 ≤ tlen ∧ tlen ≤ 9)
    (h : sim_inner rand gs tid tlen = .next st') : SimInv st' := by
  unfold sim_inner at h
  split at h
  next =>
    rw [StepRes.next.injEq] at h
    subst h
    exact ⟨inv, by simp⟩
  next parent htip =>
    obtain ⟨hparent, htidp, hopen⟩ := open_tip_spec htip
    have inv1 : EngineInv { gs with rpos := gs.rpos + 1 } := engine_inv_rpos inv
    split at h
    · -- reply branch
      split at h
      next => exact absurd h (by simp)
      next e gs2 hrep =>
        rw [StepRes.next.injEq] at h
        subst h
        obtain ⟨hshape, hpid, htid, hty, _, hctr⟩ :=
          reply_to_shape rand { gs with rpos := gs.rpos + 1 } parent e gs2 hrep
        have htl : e.threadId < gs2.ctr := by
          have h0 := inv.tidLtCtr parent hparent
          have h1 : gs2.ctr = gs.ctr + 1 := hctr
          rw [htid, h1]
          omega
        refine ⟨op_preserves_inv inv1 hshape htl ?_, by simpa using hb⟩
        exact reply_hpar inv1 hparent hopen hpid htid hty
    · -- forward branch
      split at h
      next => exact absurd h (by simp)
      next e gs2 hfwd =>
        rw [StepRes.next.injEq] at h
        subst h
        obtain ⟨hshape, hpid, htid, hty, _, hctr⟩ :=
          forward_shape rand { gs with rpos := gs.rpos + 1 } parent e gs2 hfwd
        have htl : e.threadId < gs2.ctr := by
          have h1 : gs2.ctr = gs.ctr + 2 := hctr
          have h2 : e.threadId = gs.ctr := htid
          rw [h2, h1]
          omega
        refine ⟨op_preserves_inv inv1 hshape htl ?_, by simpa using hb⟩
        exact forward_hpar inv1 hparent hopen hpid htid hty
    · -- nothing branch
      rw [StepRes.next.injEq] at h
      subst h
      exact ⟨inv1, by simpa using hb⟩

theorem sim_step_preserves {rand : ℕ → ℕ} {target : ℕ} {st st' : SimSt}
    (inv : SimInv st) (h : sim_step rand target st = .next st') : SimInv st' := by
  unfold sim_step at h
  split at h
  next hcur =>
    split at h
    next => exact absurd h (by simp)
    next =>
      split at h
      next => exact absurd h (by simp)
      next e gs1 hroot =>
        split at h
        next => exact absurd h (by simp)
        next tid htid =>
          rw [StepRes.next.injEq] at h
          subst h
          obtain ⟨hshape, hpnone, _, _, htide, hctr⟩ := create_root_shape rand _ e gs1 hroot
          have hinv1 : EngineInv gs1 := by
            refine op_preserves_inv inv.eng hshape
              (by
                have h1 : gs1.ctr = st.gs.ctr + 2 := hctr
                rw [htide, h1]
                omega) ?_
            intro p hp
            rw [hpnone] at hp
            exact absurd hp (by simp)
          exact ⟨engine_inv_rpos hinv1, by
            intro c hc
            simp only [Option.toList, List.mem_singleton] at hc
            subst hc
            simp only [randint]
            omega⟩
  next tid tlen hcur =>
    have hb : 2 ≤ tlen ∧ tlen ≤ 9 := by
      have := inv.curBounds (tid, tlen) (by rw [hcur]; simp)
      simpa using this
    split at h
    · split at h
      · split at h
        · rw [StepRes.next.injEq] at h
          subst h
          exact ⟨engine_inv_rpos inv.eng, by simp⟩
        · exact sim_inner_preserves (engine_inv_rpos inv.eng) hb h
      · exact sim_inner_preserves inv.eng hb h
    · rw [StepRes.next.injEq] at h
      subst h
      exact ⟨inv.eng, by simp⟩

theorem sim_run_invariant {rand : ℕ → ℕ} {target : ℕ} :
    ∀ (n : ℕ) (st st' : SimSt), SimInv st →
      iter_step rand target n st = some st' → SimInv st' := by
  intro n
  induction n with
  | zero =>
    intro st st' inv h
    rw [iter_step, Option.some_inj] at h
    subst h
    exact inv
  | succ n ih =>
    intro st st' inv h
    rw [iter_step] at h
    split at h
    next st2 hstep => exact ih st2 st' (sim_step_preserves inv hstep) h
    next hstep => exact absurd h (by simp)

theorem init_sim_inv (roster : List Person) (topic : Option Str) (start_date : ℕ) :
    SimInv (init_sim roster topic start_date) := by
  constructor
  · constructor <;> simp [init_sim, init_state, mids, pids, dates_ok, thread_coherent]
  · simp [init_sim]

theorem reachable_inv {rand : ℕ → ℕ} {target : ℕ} {roster : List Person}
    {topic : Option Str} {start_date : ℕ} {st : SimSt}
    (h : Reachable rand target (init_sim roster topic start_date) st) : SimInv st := by
  obtain ⟨n, hn⟩ := h
  exact sim_run_invariant n _ st (init_sim_inv roster topic start_date) hn

theorem pids_sub_mids {gs : GenState} (inv : EngineInv gs) :
    ∀ x ∈ pids gs, x ∈ mids gs := by
  intro x hx
  unfold pids at hx
  obtain ⟨e, he, hpe⟩ := List.mem_filterMap.mp hx
  exact inv.parentsKnown e he x (by rw [hpe]; simp)

/-- The two counting identities for the inclusive set, in additive form. -/
theorem count_inclusive_spec {gs : GenState} (inv : EngineInv gs) :
    count_inclusive_emails gs + (pids gs).dedup.length = gs.emails.length :=
  count_inclusive_add gs inv.nodupMids (pids_sub_mids inv)

/-- Being inclusive is the same as being no stored message's parent. -/
theorem count_inclusive_leaf_char (gs : GenState) :
    count_inclusive_emails gs =
      (gs.emails.filter
        (fun e => decide (∀ e2 ∈ gs.emails, e2.parentId ≠ some e.messageId))).length := by
  show (gs.emails.filter
      (fun e => !((gs.emails.filterMap Email.parentId).contains e.messageId))).length = _
  congr 1
  apply List.filter_congr
  intro e _
  by_cases hmem : e.messageId ∈ gs.emails.filterMap Email.parentId
  · have h1 : (gs.emails.filterMap Email.parentId).contains e.messageId = true :=
      contains_true_iff.mpr hmem
    obtain ⟨e2, he2, hpe⟩ := List.mem_filterMap.mp hmem
    have h2 : ¬(∀ e2 ∈ gs.emails, e2.parentId ≠ some e.messageId) :=
      fun hall => hall e2 he2 hpe
    rw [h1]
    simp [h2]
  · have h1 : (gs.emails.filterMap Email.parentId).contains e.messageId = false := by
      rw [Bool.eq_false_iff]
      intro hc
      exact hmem (contains_true_iff.mp hc)
    have h2 : ∀ e2 ∈ gs.emails, e2.parentId ≠ some e.messageId :=
      fun e2 he2 hpe => hmem (List.mem_filterMap.mpr ⟨e2, he2, hpe⟩)
    rw [h1]
    have h3 : decide (∀ e2 ∈ gs.emails, e2.parentId ≠ some e.messageId) = true :=
      decide_eq_true h2
    rw [h3]
    rfl

/-! Helpers for the claim theorems. -/

theorem children_count (emails : List Email) (m : ℕ) :
    (emails.filter (fun e => e.parentId == some m)).length =
      (emails.filterMap Email.parentId).count m := by
  induction emails with
  | nil => simp
  | cons e l ih =>
    cases hp : e.parentId with
    | none => simp [List.filter_cons, List.filterMap_cons, hp, ih]
    | some q =>
      by_cases hq : q = m
      · subst hq
        simp [List.filter_cons, List.filterMap_cons, hp, ih, List.count_cons]
      · simp [List.filter_cons, List.filterMap_cons, hp, ih, List.count_cons, hq]

theorem store_email_adds_parent (gs : GenState) (e : Email) (p : ℕ)
    (hp : e.parentId = some p) : p ∈ (store_email gs e).repliedParentIds := by
  simp only [store_email, hp]
  split
  next hc => exact contains_true_iff.mp hc
  next => simp

theorem choice_mem {α : Type} {l : List α} {r : ℕ} {a : α} (h : choice l r = some a) :
    a ∈ l := List.get?_mem h

theorem sim_inner_replied_mono {rand : ℕ → ℕ} {gs : GenState} {tid tlen : ℕ}
    {st' : SimSt} (h : sim_inner rand gs tid tlen = .next st') :
    ∀ x ∈ gs.repliedParentIds, x ∈ st'.gs.repliedParentIds := by
  unfold sim_inner at h
  split at h
  next =>
    rw [StepRes.next.injEq] at h
    subst h
    exact fun x hx => hx
  next parent htip =>
    split at h
    · split at h
      next => exact absurd h (by simp)
      next e gs2 hrep =>
        rw [StepRes.next.injEq] at h
        subst h
        obtain ⟨hshape, hpid, _, _, _, _⟩ :=
          reply_to_shape rand { gs with rpos := gs.rpos + 1 } parent e gs2 hrep
        intro x hx
        rw [hshape.repliedSome parent.messageId hpid]
        split
        · exact hx
        · exact List.mem_append_left _ hx
    · split at h
      next => exact absurd h (by simp)
      next e gs2 hfwd =>
        rw [StepRes.next.injEq] at h
        subst h
        obtain ⟨hshape, hpid, _, _, _, _⟩ :=
          forward_shape rand { gs with rpos := gs.rpos + 1 } parent e gs2 hfwd
        intro x hx
        rw [hshape.repliedSome parent.messageId hpid]
        split
        · exact hx
        · exact List.mem_append_left _ hx
    · rw [StepRes.next.injEq] at h
      subst h
      exact fun x hx => hx

theorem sim_step_replied_mono {rand : ℕ → ℕ} {target : ℕ} {st st' : SimSt}
    (h : sim_step rand target st = .next st') :
    ∀ x ∈ st.gs.repliedParentIds, x ∈ st'.gs.repliedParentIds := by
  unfold sim_step at h
  split at h
  next hcur =>
    split at h
    next => exact absurd h (by simp)
    next =>
      split at h
      next => exact absurd h (by simp)
      next e gs1 hroot =>
        split at h
        next => exact absurd h (by simp)
        next tid htid =>
          rw [StepRes.next.injEq] at h
          subst h
          obtain ⟨hshape, hpnone, _, _, _, _⟩ := create_root_shape rand _ e gs1 hroot
          intro x hx
          rw [hshape.repliedNone hpnone]
          exact hx
  next tid tlen hcur =>
    split at h
    · split at h
      · split at h
        · rw [StepRes.next.injEq] at h
          subst h
          exact fun x hx => hx
        · exact @sim_inner_replied_mono _ { st.gs with rpos := st.gs.rpos + 1 } _ _ _ h
      · exact sim_inner_replied_mono h
    · rw [StepRes.next.injEq] at h
      subst h
      exact fun x hx => hx

/-- The `nothing` action of the inner loop produces no message and does not
advance the virtual clock: it only consumes the action draw. -/
theorem sim_inner_nothing (rand : ℕ → ℕ) (gs : GenState) (tid tlen : ℕ)
    (parent : Email) (htip : open_tip gs tid = some parent)
    (hact : chosen_action rand gs tid = SimAction.nothing) :
    sim_inner rand gs tid tlen = .next ⟨{ gs with rpos := gs.rpos + 1 }, some (tid, tlen)⟩ := by
  unfold sim_inner
  rw [htip, hact]

/-! Clean personas and the display-string round trips. -/

/-- A persona whose fields are display-safe: name and address contain no
`" <"`, and the address does not end in `'>'`. -/
def clean_person (p : Person) : Prop :=
  contains_sub sepAngle p.name = false ∧ contains_sub sepAngle p.email = false ∧
    p.email.reverse.head? ≠ some '>'

theorem get_person_display_eq (p : Person) :
    get_person_display p = p.name ++ sepAngle ++ (p.email ++ ['>']) := by
  unfold get_person_display
  rw [List.append_assoc]

theorem extract_addr_display (p : Person) (hc : clean_person p) :
    extract_addr (get_person_display p) = p.email := by
  obtain ⟨h1, h2, h3⟩ := hc
  unfold extract_addr
  rw [get_person_display_eq]
  rw [contains_sub_append_sep p.name (p.email ++ ['>'])]
  rw [if_pos rfl]
  rw [split_on_append_sep p.name (p.email ++ ['>']) h1]
  rw [split_on_of_not_contains sepAngle (p.email ++ ['>'])
    (contains_sub_append_gtchar p.email h2)]
  exact rstrip_gt_append p.email h3

theorem available_mem_potential (gs : GenState) (tid : ℕ)
    (hclean : ∀ p ∈ gs.roster, clean_person p) :
    ∀ p ∈ get_available_recipients gs tid,
      p ∈ gs.roster.filter
        (fun q => !((get_thread_participants gs tid).contains (get_person_display q))) := by
  intro p hp
  unfold get_available_recipients at hp
  rw [List.mem_filter] at hp ⊢
  obtain ⟨hpr, hpc⟩ := hp
  refine ⟨hpr, ?_⟩
  rw [Bool.not_eq_eq_eq_not, Bool.not_true, Bool.eq_false_iff]
  intro hcon
  have hdisp : get_person_display p ∈ get_thread_participants gs tid :=
    contains_true_iff.mp hcon
  have hmem : p.email ∈ (get_thread_participants gs tid).map extract_addr := by
    rw [← extract_addr_display p (hclean p hpr)]
    exact List.mem_map_of_mem extract_addr hdisp
  rw [Bool.not_eq_eq_eq_not, Bool.not_true, Bool.eq_false_iff] at hpc
  exact hpc (contains_true_iff.mpr hmem)

theorem length_filter_ne (l : List Person) (a : Person) (ha : a ∈ l) (hnd : l.Nodup) :
    (l.filter (fun p => !(p == a))).length = l.length - 1 := by
  have hsplit := @List.length_eq_length_filter_add _ l (fun p => p == a)
  have h1 : (l.filter (fun p => p == a)).length = 1 := by
    rw [← List.countP_eq_length_filter]
    have : l.countP (fun p => p == a) = l.count a := rfl
    rw [this]
    exact List.count_eq_one_of_mem hnd ha
  omega

/-- Concrete display-safe personas used as inputs to the counterexamples and
witnesses below. -/
def pa : Person :=
  ⟨"Alice".toList, "alice@example.com".toList, "Eng".toList, "RnD".toList⟩

def pb : Person :=
  ⟨"Bob".toList, "bob@example.com".toList, "Mgr".toList, "Sales".toList⟩

def pc : Person :=
  ⟨"Carol".toList, "carol@example.com".toList, "Dir".toList, "Ops".toList⟩

def pd : Person :=
  ⟨"Dave".toList, "dave@example.com".toList, "Analyst".toList, "Fin".toList⟩

/-- A stored root message, used as the forwarded parent in the legacy-engine
counterexample. -/
def cex_parent : Email :=
  { messageId := 0, threadId := 1, parentId := none,
    sender := get_person_display pa, recipients := [get_person_display pb], cc := [],
    subject := "Hello".toList, body := "hi".toList, date := 10, type := .new,
    references := [], attachments := [] }

/-- A legacy-engine state holding `cex_parent` as its only message. -/
def cex_state : GenState :=
  { emails := [cex_parent], threadKeys := [1], repliedParentIds := [],
    usedSubjects := ["Hello".toList], currentDate := 10, roster := [pa, pb],
    topic := none, ctr := 2, rpos := 0 }

/-- The engine state after the first `simulate` step under the constant
oracle 99 (every action draw lands on "nothing"). -/
def cex_gs1 : GenState :=
  match iter_step (fun _ => 99) 2 1 (init_sim [pa, pb, pc, pd] none 0) with
  | some st => st.gs
  | none => init_state [] none 0

/-- The simulation position reached under the constant oracle 99, with the
random cursor at `r`: thread 1 is open with target length 5 and is never
grown again. -/
def cex_stA (r : ℕ) : SimSt := ⟨{ cex_gs1 with rpos := r }, some (1, 5)⟩

/-- The open tip of thread 1 in `cex_gs1` (its only message). -/
def cex_root : Email := (open_tip cex_gs1 1).getD cex_parent

/-- The message and state produced by the legacy forward in the
counterexample. -/
def cex_fwd : Email × GenState :=
  (forward_legacy (fun _ => 0) cex_state cex_parent).getD (cex_parent, cex_state)

/-- A nontrivial reachable simulation state (4 steps of the all-zero-oracle
run: two threads, three messages). -/
def wit_st : SimSt :=
  (iter_step (fun _ => 0) 2 4 (init_sim [pa, pb, pc, pd] none 0)).getD
    (init_sim [] none 0)

/-- A state in which the forward draw is genuinely available (`pc` is not a
participant of thread 1). -/
def wit_fwd_gs : GenState := { cex_state with roster := [pa, pb, pc] }

/-- The simulate loop never returns (and never raises): after every finite
number of steps it is still running. -/
def never_finishes (rand : ℕ → ℕ) (target : ℕ) (st0 : SimSt) : Prop :=
  ∀ n, (iter_step rand target n st0).isSome = true

/-! The export filename layer (`save_as_markdown` of both engines, and the
`__main__` export loop's zero-padded sequence index). -/

/-- Python string comparison (`sorted` on filenames): strict lexicographic
order by code point, a proper prefix sorting first. -/
def lex_lt : Str → Str → Bool
  | [], [] => false
  | [], _ :: _ => true
  | _ :: _, [] => false
  | a :: s, b :: t => if a < b then true else if b < a then false else lex_lt s t

/-- Decimal digits of `n`, least significant first (fuel-indexed worker). -/
def dec_digits_rev : ℕ → ℕ → List ℕ
  | 0, _ => []
  | fuel + 1, n => if n = 0 then [] else n % 10 :: dec_digits_rev fuel (n / 10)

/-- The decimal rendering of `n` (`str(n)` / the `d` format code). -/
def decRepr (n : ℕ) : Str :=
  if n = 0 then ['0'] else ((dec_digits_rev n n).map Nat.digitChar).reverse

/-- Python's `f"{n:04d}"` zero padding: pad the decimal rendering with
leading `'0'`s to at least four characters. -/
def pad4 (s : Str) : Str := List.replicate (4 - s.length) '0' ++ s

/-- `safe_subject` as built in both `save_as_markdown`s: non-alphanumeric
characters become `'_'`, truncated to 40 characters. -/
def safe_subject (s : Str) : Str :=
  (s.map (fun c => if c.isAlphanum then c else '_')).take 40

/-- `f"{index:04d}a_{safe_subject}.md"` of
`src/models/thread_generator.py`. -/
def email_filename (index : ℕ) (subject : Str) : Str :=
  pad4 (decRepr index) ++ ['a', '_'] ++ safe_subject subject ++ ".md".toList

/-- `f"{index:04d}b_{att_base}{att_ext}"` of
`src/models/thread_generator.py`. -/
def attachment_filename (index : ℕ) (base ext : Str) : Str :=
  pad4 (decRepr index) ++ ['b', '_'] ++ base ++ ext

/-- `f"{index:04d}_{safe_subject}.md"` of `src/generate_emails.py`. -/
def email_filename_legacy (index : ℕ) (subject : Str) : Str :=
  pad4 (decRepr index) ++ ['_'] ++ safe_subject subject ++ ".md".toList

/-- `f"{index:04d}_{safe_subject}_attachment_{att_base}{att_ext}"` of
`src/generate_emails.py`. -/
def attachment_filename_legacy (index : ℕ) (subject base ext : Str) : Str :=
  pad4 (decRepr index) ++ ['_'] ++ safe_subject subject ++
    "_attachment_".toList ++ base ++ ext

/-! Termination of `simulate` under oracles that never draw "nothing". -/

/-- The number of messages of thread `tid` that have not been replied to. -/
def unreplied_count (gs : GenState) (tid : ℕ) : ℕ :=
  ((thread_msgs gs tid).filter (fun m => !(has_reply gs m.messageId))).length

/-- How much work the current thread can still cause. -/
def measure_inner (gs : GenState) (tid tlen : ℕ) : ℕ :=
  2 + (tlen - (thread_msgs gs tid).length) + unreplied_count gs tid

/-- A bound on the number of remaining loop iterations. -/
def sim_measure (target : ℕ) (st : SimSt) : ℕ :=
  match st.cur with
  | none => 11 * (target - count_inclusive_emails st.gs) + 1
  | some (tid, tlen) =>
    11 * (target - count_inclusive_emails st.gs) + measure_inner st.gs tid tlen

/-- The state conditions under which the loop makes progress: the engine
invariant, a roster of at least 4 distinct personas, and an open thread's id
already allocated. -/
def TermHyp (st : SimSt) : Prop :=
  SimInv st ∧ st.gs.roster.Nodup ∧ 4 ≤ st.gs.roster.length ∧
    ∀ c ∈ st.cur.toList, c.1 < st.gs.ctr

/-! The claim theorems. -/

/-- Claim C2: in every reachable engine state, `_count_inclusive_emails`
returns exactly the number of stored messages whose `message_id` appears as no
stored message's `parent_id`; every stored non-null `parent_id` is a stored
`message_id`, the stored `message_id`s are distinct, and the count equals the
number of stored messages minus the number of distinct non-null `parent_id`s. -/
theorem C2_count_inclusive {rand : ℕ → ℕ} {target : ℕ} {roster : List Person}
    {topic : Option Str} {start_date : ℕ} {st : SimSt}
    (h : Reachable rand target (init_sim roster topic start_date) st) :
    count_inclusive_emails st.gs =
      (st.gs.emails.filter
        (fun e => decide (∀ e2 ∈ st.gs.emails, e2.parentId ≠ some e.messageId))).length ∧
    (∀ x ∈ pids st.gs, x ∈ mids st.gs) ∧ (mids st.gs).Nodup ∧
    count_inclusive_emails st.gs =
      st.gs.emails.length - (pids st.gs).dedup.length := by
  have inv := (reachable_inv h).eng
  refine ⟨count_inclusive_leaf_char st.gs, pids_sub_mids inv, inv.nodupMids, ?_⟩
  have hadd := count_inclusive_spec inv
  omega

/-- With a roster of at least 4 distinct personas, `create_root_email`
always succeeds: the sampling pool (roster minus sender) has at least 3
elements, which covers every drawn sample size. -/
theorem create_root_success (rand : ℕ → ℕ) (gs : GenState)
    (hnd : gs.roster.Nodup) (hlen : 4 ≤ gs.roster.length) :
    ∃ (e : Email) (gs2 : GenState) (sender : Person) (rs : List Person),
      create_root_email rand gs = some (e, gs2) ∧
      sender ∈ gs.roster ∧ e.sender = get_person_display sender ∧
      e.recipients = rs.map get_person_display ∧
      1 ≤ rs.length ∧ rs.length ≤ 3 ∧ rs.Nodup ∧
      ∀ x ∈ rs, x ∈ gs.roster ∧ x ≠ sender := by
  rcases hcre : create_root_email rand gs with _ | ⟨e, gs2⟩
  · exfalso
    unfold create_root_email at hcre
    split at hcre
    next hc =>
      unfold choice at hc
      rw [List.get?_eq_none] at hc
      have := Nat.mod_lt (rand gs.rpos) (show 0 < gs.roster.length by omega)
      omega
    next sender hc =>
      have hsmem : sender ∈ gs.roster := choice_mem hc
      simp only [sample, root_subject_body, dedup_subject, tick_time, store_email] at hcre
      split at hcre
      next hpair =>
        by_cases hlt : (gs.roster.filter (fun p => !(p == sender))).length <
            randint 1 3 (rand (gs.rpos + 1))
        · rw [length_filter_ne gs.roster sender hsmem hnd] at hlt
          simp only [randint] at hlt
          omega
        · rw [if_neg hlt] at hpair
          simp at hpair
      next recips rposA hpair => exact absurd hcre (by simp)
  · have h := hcre
    unfold create_root_email at h
    split at h
    next => exact absurd h (by simp)
    next sender hc =>
      have hsmem : sender ∈ gs.roster := choice_mem hc
      simp only [sample, root_subject_body, dedup_subject, tick_time, store_email] at h
      split at h
      next => exact absurd h (by simp)
      next recips rposA hpair =>
        split at hpair
        next => exact absurd hpair (by simp)
        next hnlt =>
          rw [Nat.not_lt] at hnlt
          rw [Prod.mk.injEq, Option.some_inj] at hpair
          obtain ⟨hrec, hrposA⟩ := hpair
          obtain ⟨hL, hM, hN⟩ := sample_go_spec rand (randint 1 3 (rand (gs.rpos + 1)))
            (gs.roster.filter (fun p => !(p == sender))) (gs.rpos + 2) hnlt
          rw [hrec] at hL hM hN
          rw [Option.some_inj, Prod.mk.injEq] at h
          obtain ⟨he, hgs⟩ := h
          refine ⟨e, gs2, sender, recips, rfl, hsmem, ?_, ?_, ?_, ?_,
            hN (hnd.filter _), ?_⟩
          · rw [← he]
          · rw [← he]
          · simp only [randint] at hL
            omega
          · simp only [randint] at hL
            omega
          · intro x hx
            have hxf := hM x hx
            rw [List.mem_filter] at hxf
            obtain ⟨hx1, hx2⟩ := hxf
            refine ⟨hx1, ?_⟩
            intro hcon
            rw [hcon] at hx2
            simp at hx2

/-- Claim C4 (amended): with a roster of at least 4 distinct personas,
`create_root_email` always succeeds, whatever the random draws: it picks a
sender from the roster and 1-3 distinct recipients from the roster excluding
the sender, and the recipient-sampling failure branch is unreachable.  (With
only 2 or 3 personas it can fail; see the counterexample.) -/
theorem C4_root_creation (rand : ℕ → ℕ) (gs : GenState)
    (hnd : gs.roster.Nodup) (hlen : 4 ≤ gs.roster.length) :
    ∃ (e : Email) (gs2 : GenState) (sender : Person) (rs : List Person),
      create_root_email rand gs = some (e, gs2) ∧
      sender ∈ gs.roster ∧ e.sender = get_person_display sender ∧
      e.recipients = rs.map get_person_display ∧
      1 ≤ rs.length ∧ rs.length ≤ 3 ∧ rs.Nodup ∧
      ∀ x ∈ rs, x ∈ gs.roster ∧ x ≠ sender :=
  create_root_success rand gs hnd hlen

/-- Claim C4, counterexample: a roster of two distinct personas on which
`create_root_email` fails, because the drawn recipient-sample size (2) exceeds
the one-element pool left after excluding the sender. -/
theorem C4_counterexample :
    [pa, pb].Nodup ∧ 2 ≤ ([pa, pb] : List Person).length ∧
    create_root_email (fun _ => 1) (init_state [pa, pb] none 0) = none := by
  refine ⟨by decide, by decide, ?_⟩
  rfl

/-- Claim C5: in every state reachable through `simulate`, each message has at
most one child (no second reply targets an already-replied message); the open
tip is always chosen among the thread's messages that are not in the
already-replied set; and storing any message with a parent immediately adds
that parent's `message_id` to the set. -/
theorem C5_no_rebranching {rand : ℕ → ℕ} {target : ℕ} {roster : List Person}
    {topic : Option Str} {start_date : ℕ} {st : SimSt}
    (h : Reachable rand target (init_sim roster topic start_date) st) :
    (∀ m : ℕ, (st.gs.emails.filter (fun e => e.parentId == some m)).length ≤ 1) ∧
    (∀ (gs : GenState) (tid : ℕ) (m : Email), open_tip gs tid = some m →
        m ∈ thread_msgs gs tid ∧ m.messageId ∉ gs.repliedParentIds) ∧
    (∀ (gs : GenState) (e : Email) (p : ℕ), e.parentId = some p →
        p ∈ (store_email gs e).repliedParentIds) := by
  have inv := (reachable_inv h).eng
  refine ⟨?_, ?_, store_email_adds_parent⟩
  · intro m
    rw [children_count]
    exact List.nodup_iff_count_le_one.mp inv.nodupPids m
  · intro gs tid m htip
    have hspec := open_tip_spec htip
    refine ⟨?_, hspec.2.2⟩
    have hmem := List.mem_of_mem_getLast? htip
    exact (List.mem_filter.mp hmem).1

/-- Claim C6: in every reachable state the stored messages' dates are
non-decreasing with consecutive gaps of 1–120 minutes; each of
`create_root_email`, `reply_to` and `forward` advances the shared clock by
one 1–120 minute tick and stamps the new message with the new time; and the
`nothing` action leaves the state — in particular the clock — unchanged
except for the consumed draw. -/
theorem C6_monotonic_clock {rand : ℕ → ℕ} {target : ℕ} {roster : List Person}
    {topic : Option Str} {start_date : ℕ} {st : SimSt}
    (h : Reachable rand target (init_sim roster topic start_date) st) :
    dates_ok st.gs.emails = true ∧
    (∀ (rand2 : ℕ → ℕ) (gs : GenState) (e : Email) (gs2 : GenState),
        create_root_email rand2 gs = some (e, gs2) →
          e.date = gs2.currentDate ∧ gs.currentDate + 1 ≤ gs2.currentDate ∧
            gs2.currentDate ≤ gs.currentDate + 120) ∧
    (∀ (rand2 : ℕ → ℕ) (gs : GenState) (parent e : Email) (gs2 : GenState),
        reply_to rand2 gs parent = some (e, gs2) →
          e.date = gs2.currentDate ∧ gs.currentDate + 1 ≤ gs2.currentDate ∧
            gs2.currentDate ≤ gs.currentDate + 120) ∧
    (∀ (rand2 : ℕ → ℕ) (gs : GenState) (parent e : Email) (gs2 : GenState),
        forward rand2 gs parent = some (e, gs2) →
          e.date = gs2.currentDate ∧ gs.currentDate + 1 ≤ gs2.currentDate ∧
            gs2.currentDate ≤ gs.currentDate + 120) ∧
    (∀ (rand2 : ℕ → ℕ) (gs : GenState) (tid tlen : ℕ) (parent : Email),
        open_tip gs tid = some parent →
        chosen_action rand2 gs tid = SimAction.nothing →
        sim_inner rand2 gs tid tlen =
          .next ⟨{ gs with rpos := gs.rpos + 1 }, some (tid, tlen)⟩) := by
  refine ⟨(reachable_inv h).eng.datesOk, ?_, ?_, ?_, sim_inner_nothing⟩
  · intro rand2 gs e gs2 hop
    obtain ⟨hshape, _, _, _, _, _⟩ := create_root_shape rand2 gs e gs2 hop
    exact ⟨hshape.dateEq, hshape.dateLo, hshape.dateHi⟩
  · intro rand2 gs parent e gs2 hop
    obtain ⟨hshape, _, _, _, _, _⟩ := reply_to_shape rand2 gs parent e gs2 hop
    exact ⟨hshape.dateEq, hshape.dateLo, hshape.dateHi⟩
  · intro rand2 gs parent e gs2 hop
    obtain ⟨hshape, _, _, _, _, _⟩ := forward_shape rand2 gs parent e gs2 hop
    exact ⟨hshape.dateEq, hshape.dateLo, hshape.dateHi⟩

/-- Claim C10 (implicit): `_store_email` records the stored message's parent
as replied-to for every message with a parent — forwards included (shown both
at `_store_email` and at `forward` level); under `simulate` every message is
the parent of at most one other message; the open tip is never a message in
the already-replied set (so a message that was only forwarded is never again
selected); and the already-replied set only grows along simulation steps. -/
theorem C10_forward_marks_replied {rand : ℕ → ℕ} {target : ℕ}
    {roster : List Person} {topic : Option Str} {start_date : ℕ} {st : SimSt}
    (h : Reachable rand target (init_sim roster topic start_date) st) :
    (∀ (gs : GenState) (e : Email) (p : ℕ), e.parentId = some p →
        p ∈ (store_email gs e).repliedParentIds) ∧
    (∀ (rand2 : ℕ → ℕ) (gs : GenState) (parent e : Email) (gs2 : GenState),
        forward rand2 gs parent = some (e, gs2) →
          parent.messageId ∈ gs2.repliedParentIds) ∧
    (∀ (gs : GenState) (tid : ℕ) (m : Email), open_tip gs tid = some m →
        has_reply gs m.messageId = false) ∧
    (∀ m : ℕ, (st.gs.emails.filter (fun e => e.parentId == some m)).length ≤ 1) ∧
    (∀ (st1 st2 : SimSt), sim_step rand target st1 = .next st2 →
        ∀ x ∈ st1.gs.repliedParentIds, x ∈ st2.gs.repliedParentIds) := by
  have inv := (reachable_inv h).eng
  refine ⟨store_email_adds_parent, ?_, ?_, ?_, ?_⟩
  · intro rand2 gs parent e gs2 hop
    obtain ⟨hshape, hpid, _, _, _, _⟩ := forward_shape rand2 gs parent e gs2 hop
    rw [hshape.repliedSome parent.messageId hpid]
    split
    next hc => exact contains_true_iff.mp hc
    next => simp
  · intro gs tid m htip
    have hspec := open_tip_spec htip
    unfold has_reply
    rw [Bool.eq_false_iff]
    intro hc
    exact hspec.2.2 (contains_true_iff.mp hc)
  · intro m
    rw [children_count]
    exact List.nodup_iff_count_le_one.mp inv.nodupPids m
  · intro st1 st2 hstep
    exact sim_step_replied_mono hstep

/-- Claim C1 (amended): in the engine of `src/models/thread_generator.py`
every message created by `reply_to` keeps its parent's `thread_id`, and every
message created by `forward` carries a freshly allocated `thread_id` that
differs from the parent's (indeed from every stored message's); consequently
parent links in every reachable state are thread-coherent: a non-forward
child shares its parent's thread, a forward never does.  (The legacy engine
in `src/generate_emails.py` violates the forward part: see the
counterexample.) -/
theorem C1_thread_invariant {rand : ℕ → ℕ} {target : ℕ} {roster : List Person}
    {topic : Option Str} {start_date : ℕ} {st : SimSt}
    (h : Reachable rand target (init_sim roster topic start_date) st) :
    (∀ (rand2 : ℕ → ℕ) (gs : GenState) (parent e : Email) (gs2 : GenState),
        reply_to rand2 gs parent = some (e, gs2) → e.threadId = parent.threadId) ∧
    (∀ (rand2 : ℕ → ℕ) (gs : GenState) (parent e : Email) (gs2 : GenState),
        EngineInv gs → parent ∈ gs.emails →
        forward rand2 gs parent = some (e, gs2) →
          e.threadId ≠ parent.threadId ∧ ∀ e2 ∈ gs.emails, e2.threadId ≠ e.threadId) ∧
    thread_coherent st.gs = true := by
  refine ⟨?_, ?_, (reachable_inv h).eng.coherent⟩
  · intro rand2 gs parent e gs2 hop
    exact (reply_to_shape rand2 gs parent e gs2 hop).2.2.1
  · intro rand2 gs parent e gs2 inv hparent hop
    obtain ⟨_, _, htid, _, _, _⟩ := forward_shape rand2 gs parent e gs2 hop
    constructor
    · have := inv.tidLtCtr parent hparent
      rw [htid]
      omega
    · intro e2 he2
      have := inv.tidLtCtr e2 he2
      rw [htid]
      omega

/-- Claim C7: when the weighted draw selects `forward` but no roster persona
is outside the thread's participants, the action is downgraded to `reply`
(`chosen_action` only yields `forward` with available new recipients); hence
whenever the inner loop actually stores a forward, new recipients were
available; and — for a roster of display-safe personas — a `forward` invoked
with available recipients addresses a roster persona who is not a thread
participant (its eligible-recipient pool is never empty). -/
theorem C7_forward_downgrade :
    (∀ (rand2 : ℕ → ℕ) (gs : GenState) (tid : ℕ),
        chosen_action rand2 gs tid = SimAction.fwd →
          can_forward_to_new_recipients gs tid = true) ∧
    (∀ (rand2 : ℕ → ℕ) (gs : GenState) (tid tlen : ℕ) (parent : Email)
        (st' : SimSt) (e : Email),
        open_tip gs tid = some parent →
        sim_inner rand2 gs tid tlen = .next st' →
        st'.gs.emails = gs.emails ++ [e] →
        e.type = MsgType.forward →
        can_forward_to_new_recipients gs tid = true) ∧
    (∀ (rand2 : ℕ → ℕ) (gs : GenState) (parent e : Email) (gs2 : GenState),
        (∀ p ∈ gs.roster, clean_person p) →
        get_available_recipients gs parent.threadId ≠ [] →
        forward rand2 gs parent = some (e, gs2) →
          ∃ q, q ∈ gs.roster ∧ e.recipients = [get_person_display q] ∧
            get_person_display q ∉ get_thread_participants gs parent.threadId) := by
  have hdowngrade : ∀ (rand2 : ℕ → ℕ) (gs : GenState) (tid : ℕ),
      chosen_action rand2 gs tid = SimAction.fwd →
        can_forward_to_new_recipients gs tid = true := by
    intro rand2 gs tid hact
    unfold chosen_action at hact
    cases hpa : pick_action (rand2 gs.rpos) with
    | reply =>
      simp only [hpa] at hact
      exact absurd hact (by simp)
    | fwd =>
      simp only [hpa] at hact
      by_cases hcan : can_forward_to_new_recipients gs tid = true
      · exact hcan
      · rw [Bool.not_eq_true] at hcan
        rw [hcan] at hact
        simp at hact
    | nothing =>
      simp only [hpa] at hact
      exact absurd hact (by simp)
  refine ⟨hdowngrade, ?_, ?_⟩
  · intro rand2 gs tid tlen parent st' e htip hstep hemails hty
    unfold sim_inner at hstep
    rw [htip] at hstep
    simp only at hstep
    split at hstep
    next hact =>
      -- reply branch: the stored message is a reply, not a forward
      split at hstep
      next => exact absurd hstep (by simp)
      next e2 gs2 hrep =>
        rw [StepRes.next.injEq] at hstep
        subst hstep
        obtain ⟨hshape, _, _, hty2, _, _⟩ :=
          reply_to_shape rand2 { gs with rpos := gs.rpos + 1 } parent e2 gs2 hrep
        exfalso
        have hb : ({ gs with rpos := gs.rpos + 1 } : GenState).emails ++ [e2] =
            gs.emails ++ [e] := by
          rw [← hshape.emails]
          exact hemails
        have he : e2 = e := by
          have := List.append_cancel_left hb
          simpa using this
        rw [he, hty] at hty2
        exact absurd hty2 (by simp)
    next hact => exact hdowngrade rand2 gs tid hact
    next hact =>
      -- nothing branch: no message is stored
      rw [StepRes.next.injEq] at hstep
      subst hstep
      exfalso
      have := congrArg List.length hemails
      simp at this
  · intro rand2 gs parent e gs2 hclean havail hop
    have hpotne : gs.roster.filter
        (fun q => !((get_thread_participants gs parent.threadId).contains
          (get_person_display q))) ≠ [] := by
      obtain ⟨p0, hp0⟩ := List.exists_mem_of_ne_nil _ havail
      exact List.ne_nil_of_mem (available_mem_potential gs parent.threadId hclean p0 hp0)
    have hie : (gs.roster.filter
        (fun q => !((get_thread_participants gs parent.threadId).contains
          (get_person_display q)))).isEmpty = false := by
      rw [Bool.eq_false_iff]
      intro hc
      exact hpotne (List.isEmpty_iff.mp hc)
    unfold forward at hop
    simp only [tick_time, store_email] at hop
    split at hop
    next => exact absurd hop (by simp)
    next sender hsender =>
      split at hop
      next => exact absurd hop (by simp)
      next potential hpot =>
        rw [hie] at hpot
        simp only [Bool.false_eq_true, if_false, Option.some_inj] at hpot
        split at hop
        next => exact absurd hop (by simp)
        next recipient hrec =>
          have hrmem := choice_mem hrec
          rw [← hpot] at hrmem
          rw [List.mem_filter] at hrmem
          obtain ⟨hrr, hrc⟩ := hrmem
          refine ⟨recipient, hrr, ?_, ?_⟩
          · split at hop <;>
            · rw [Option.some_inj, Prod.mk.injEq] at hop
              obtain ⟨he, _⟩ := hop
              subst he
              rfl
          · intro hin
            rw [Bool.not_eq_eq_eq_not, Bool.not_true, Bool.eq_false_iff] at hrc
            exact hrc (contains_true_iff.mpr hin)

/-- An inner-loop iteration never returns normally: only the outer-loop
target check produces `done`. -/
theorem sim_inner_no_done (rand : ℕ → ℕ) (gs : GenState) (tid tlen : ℕ)
    (gs2 : GenState) : sim_inner rand gs tid tlen ≠ StepRes.done gs2 := by
  unfold sim_inner
  split
  · simp
  · split <;> (try split) <;> simp

/-- Claim C1, counterexample: in the legacy engine of `src/generate_emails.py`
a forwarded message keeps its parent's `thread_id`, contradicting "a forward's
`thread_id` is always different from its parent's". -/
theorem C1_counterexample :
    forward_legacy (fun _ => 0) cex_state cex_parent = some cex_fwd ∧
    cex_fwd.1.type = MsgType.forward ∧
    cex_fwd.1.parentId = some cex_parent.messageId ∧
    cex_fwd.1.threadId = cex_parent.threadId := by
  exact ⟨by decide, by decide, by decide, by decide⟩

/-- Claim C9 (amended): with `" <"` present, `parse_display` returns the part
before the first `" <"` as name and the part *between* the first and second
`" <"* (trailing `'>'`s stripped) as email; and it returns the whole string
twice exactly when `" <"` does not occur in the input (not: when no `"<...>"`
is found). -/
theorem C9_parse_display (s : Str) :
    (contains_sub sepAngle s = true →
      parse_display s =
        (before_first sepAngle s,
         rstrip_gt (before_first sepAngle (after_first sepAngle s)))) ∧
    (parse_display s = (s, s) ↔ contains_sub sepAngle s = false) :=
  ⟨(parse_display_eq s).1, parse_display_self_iff s⟩

theorem C9_parse_display_witness :
    (contains_sub sepAngle "Alice <alice@example.com>".toList = true ∧
      parse_display "Alice <alice@example.com>".toList =
        (before_first sepAngle "Alice <alice@example.com>".toList,
         rstrip_gt (before_first sepAngle
           (after_first sepAngle "Alice <alice@example.com>".toList)))) ∧
    (parse_display "plain".toList = ("plain".toList, "plain".toList) ↔
      contains_sub sepAngle "plain".toList = false) :=
  ⟨⟨by decide, (C9_parse_display "Alice <alice@example.com>".toList).1 (by decide)⟩,
    (C9_parse_display "plain".toList).2⟩

/-- Claim C9, counterexample: the email field is *not* "the part after the
first `\" <\"` with trailing `'>'` stripped" (second separators cut it short),
and the whole-string case is *not* "exactly when no `\"<...>\"` is found"
(`"a<b>"` contains an angle pair yet parses to itself twice). -/
theorem C9_counterexample :
    (parse_display "A <b> <c>".toList = ("A".toList, "b".toList) ∧
      rstrip_gt (after_first sepAngle "A <b> <c>".toList) = "b> <c".toList ∧
      ("b".toList : Str) ≠ "b> <c".toList) ∧
    (has_angle_pair "a<b>".toList = true ∧
      parse_display "a<b>".toList = ("a<b>".toList, "a<b>".toList)) := by
  exact ⟨⟨rfl, rfl, by decide⟩, ⟨rfl, rfl⟩⟩

/-- Claim C3, counterexample: `simulate` does not always return.  Under the
constant oracle 99 every weighted draw selects "nothing" and the early-end
check never fires, so with target 2 and a 4-person roster the loop runs
forever: after every finite number of steps it is still running. -/
theorem C3_counterexample :
    never_finishes (fun _ => 99) 2 (init_sim [pa, pb, pc, pd] none 0) := by
  unfold never_finishes
  have hpa : ∀ gs : GenState, pick_action ((fun _ : ℕ => 99) gs.rpos) = SimAction.nothing :=
    fun gs => by
      show pick_action 99 = SimAction.nothing
      rfl
  have h1 : ∀ r : ℕ, sim_step (fun _ => 99) 2 (cex_stA r) = StepRes.next (cex_stA (r + 1)) := by
    intro r
    have hca : chosen_action (fun _ => 99) { cex_gs1 with rpos := r } 1 = SimAction.nothing := by
      unfold chosen_action
      rw [hpa { cex_gs1 with rpos := r }]
    have hopen : open_tip ({ cex_gs1 with rpos := r } : GenState) 1 = some cex_root := rfl
    show sim_inner (fun _ => 99) { cex_gs1 with rpos := r } 1 5 = StepRes.next (cex_stA (r + 1))
    simp only [sim_inner, hopen, hca]
    rfl
  have haux : ∀ k r, (iter_step (fun _ => 99) 2 k (cex_stA r)).isSome = true := by
    intro k
    induction k with
    | zero => intro r; rfl
    | succ k ih =>
      intro r
      simp only [iter_step, h1]
      exact ih (r + 1)
  intro n
  cases n with
  | zero => rfl
  | succ n =>
    have h0 : sim_step (fun _ => 99) 2 (init_sim [pa, pb, pc, pd] none 0) =
        StepRes.next (cex_stA 7) := by decide
    simp only [iter_step, h0]
    exact haux n 7


/-- `dec_digits_rev` does not depend on the fuel once it covers `n`. -/
theorem dec_digits_rev_fuel : ∀ (n f1 f2 : ℕ), n ≤ f1 → n ≤ f2 →
    dec_digits_rev f1 n = dec_digits_rev f2 n := by
  intro n
  induction n using Nat.strong_induction_on with
  | _ n ih =>
    intro f1 f2 h1 h2
    by_cases hz : n = 0
    · subst hz
      cases f1 <;> cases f2 <;> simp [dec_digits_rev]
    · obtain ⟨a, rfl⟩ : ∃ a, f1 = a + 1 := ⟨f1 - 1, by omega⟩
      obtain ⟨b, rfl⟩ : ∃ b, f2 = b + 1 := ⟨f2 - 1, by omega⟩
      simp only [dec_digits_rev, if_neg hz]
      congr 1
      exact ih (n / 10) (by omega) a b (by omega) (by omega)

/-- For indices up to 9999, the zero-padded rendering is exactly the four
decimal digits. -/
theorem pad4_decRepr (n : ℕ) (h : n ≤ 9999) :
    pad4 (decRepr n) =
      [Nat.digitChar (n / 1000 % 10), Nat.digitChar (n / 100 % 10),
       Nat.digitChar (n / 10 % 10), Nat.digitChar (n % 10)] := by
  have hstep : ∀ (f m : ℕ), m ≠ 0 →
      dec_digits_rev (f + 1) m = m % 10 :: dec_digits_rev f (m / 10) := by
    intro f m hm
    simp [dec_digits_rev, hm]
  have hzero : ∀ f, dec_digits_rev f 0 = [] := by
    intro f
    cases f <;> simp [dec_digits_rev]
  rcases Nat.eq_zero_or_pos n with h0 | h0
  · subst h0
    rfl
  have hfuel : dec_digits_rev n n = dec_digits_rev 9999 n :=
    dec_digits_rev_fuel n n 9999 (le_refl n) h
  rcases Nat.lt_or_ge n 10 with h10 | h10
  · have e1 : dec_digits_rev 9999 n = [n % 10] := by
      rw [show (9999 : ℕ) = 9998 + 1 from rfl, hstep 9998 n (by omega)]
      rw [show n / 10 = 0 from by omega, hzero]
    unfold decRepr
    rw [if_neg (by omega), hfuel, e1]
    rw [show n / 1000 % 10 = 0 from by omega, show n / 100 % 10 = 0 from by omega,
      show n / 10 % 10 = 0 from by omega]
    rfl
  rcases Nat.lt_or_ge n 100 with h100 | h100
  · have e1 : dec_digits_rev 9999 n = [n % 10, n / 10 % 10] := by
      rw [show (9999 : ℕ) = 9998 + 1 from rfl, hstep 9998 n (by omega)]
      rw [show (9998 : ℕ) = 9997 + 1 from rfl, hstep 9997 (n / 10) (by omega)]
      rw [show n / 10 / 10 = 0 from by omega, hzero]
    unfold decRepr
    rw [if_neg (by omega), hfuel, e1]
    rw [show n / 1000 % 10 = 0 from by omega, show n / 100 % 10 = 0 from by omega]
    rfl
  rcases Nat.lt_or_ge n 1000 with h1000 | h1000
  · have e1 : dec_digits_rev 9999 n = [n % 10, n / 10 % 10, n / 10 / 10 % 10] := by
      rw [show (9999 : ℕ) = 9998 + 1 from rfl, hstep 9998 n (by omega)]
      rw [show (9998 : ℕ) = 9997 + 1 from rfl, hstep 9997 (n / 10) (by omega)]
      rw [show (9997 : ℕ) = 9996 + 1 from rfl, hstep 9996 (n / 10 / 10) (by omega)]
      rw [show n / 10 / 10 / 10 = 0 from by omega, hzero]
    unfold decRepr
    rw [if_neg (by omega), hfuel, e1]
    rw [show n / 10 / 10 = n / 100 from by omega]
    rw [show n / 1000 % 10 = 0 from by omega]
    rfl
  · have e1 : dec_digits_rev 9999 n =
        [n % 10, n / 10 % 10, n / 10 / 10 % 10, n / 10 / 10 / 10 % 10] := by
      rw [show (9999 : ℕ) = 9998 + 1 from rfl, hstep 9998 n (by omega)]
      rw [show (9998 : ℕ) = 9997 + 1 from rfl, hstep 9997 (n / 10) (by omega)]
      rw [show (9997 : ℕ) = 9996 + 1 from rfl, hstep 9996 (n / 10 / 10) (by omega)]
      rw [show (9996 : ℕ) = 9995 + 1 from rfl, hstep 9995 (n / 10 / 10 / 10) (by omega)]
      rw [show n / 10 / 10 / 10 / 10 = 0 from by omega, hzero]
    unfold decRepr
    rw [if_neg (by omega), hfuel, e1]
    rw [show n / 10 / 10 = n / 100 from by omega]
    rw [show n / 100 / 10 = n / 1000 from by omega]
    rfl

theorem lex_lt_cons (a b : Char) (s t : Str) :
    lex_lt (a :: s) (b :: t) =
      if a < b then true else if b < a then false else lex_lt s t := rfl

/-- Equal prefixes compare by the first difference. -/
theorem lex_lt_same_prefix (p : Str) (a b : Char) (x y : Str) (h : a < b) :
    lex_lt (p ++ a :: x) (p ++ b :: y) = true := by
  induction p with
  | nil =>
    simp only [List.nil_append, lex_lt_cons]
    rw [if_pos h]
  | cons c p ih =>
    simp only [List.cons_append, lex_lt_cons]
    rw [if_neg (lt_irrefl c), if_neg (lt_irrefl c)]
    exact ih

/-- Within the padded range, a smaller index sorts strictly first, whatever
follows the padded digits. -/
theorem pad4_mono (i j : ℕ) (hij : i < j) (hj : j ≤ 9999) (x y : Str) :
    lex_lt (pad4 (decRepr i) ++ x) (pad4 (decRepr j) ++ y) = true := by
  have hkey : ∀ a : ℕ, a < 10 → ∀ b : ℕ, b < 10 →
      ((Nat.digitChar a < Nat.digitChar b) ↔ a < b) ∧
      (a = b → Nat.digitChar a = Nat.digitChar b) := by decide
  rw [pad4_decRepr i (by omega), pad4_decRepr j hj]
  simp only [List.cons_append, List.nil_append, lex_lt_cons]
  by_cases h3 : i / 1000 % 10 < j / 1000 % 10
  · rw [if_pos ((hkey _ (by omega) _ (by omega)).1.mpr h3)]
  by_cases e3 : i / 1000 % 10 = j / 1000 % 10
  case neg => exfalso; omega
  rw [(hkey _ (by omega) _ (by omega)).2 e3]
  rw [if_neg (lt_irrefl _), if_neg (lt_irrefl _)]
  by_cases h2 : i / 100 % 10 < j / 100 % 10
  · rw [if_pos ((hkey _ (by omega) _ (by omega)).1.mpr h2)]
  by_cases e2 : i / 100 % 10 = j / 100 % 10
  case neg => exfalso; omega
  rw [(hkey _ (by omega) _ (by omega)).2 e2]
  rw [if_neg (lt_irrefl _), if_neg (lt_irrefl _)]
  by_cases h1 : i / 10 % 10 < j / 10 % 10
  · rw [if_pos ((hkey _ (by omega) _ (by omega)).1.mpr h1)]
  by_cases e1 : i / 10 % 10 = j / 10 % 10
  case neg => exfalso; omega
  rw [(hkey _ (by omega) _ (by omega)).2 e1]
  rw [if_neg (lt_irrefl _), if_neg (lt_irrefl _)]
  have h0 : i % 10 < j % 10 := by omega
  rw [if_pos ((hkey _ (by omega) _ (by omega)).1.mpr h0)]

/-- Claim C8 (amended): for sequence indices up to 9999 the zero-padded
filenames of both engines sort lexicographically in index order, and each
email file sorts before its attachment copies and before every
higher-indexed artifact.  (Beyond 9999 the padding no longer orders the
names; see the counterexample.) -/
theorem C8_sort_order (i j : ℕ) (hij : i < j) (hj : j ≤ 9999)
    (s1 s2 base ext : Str) :
    lex_lt (email_filename i s1) (email_filename j s2) = true ∧
    lex_lt (email_filename i s1) (attachment_filename i base ext) = true ∧
    lex_lt (attachment_filename i base ext) (email_filename j s2) = true ∧
    lex_lt (email_filename_legacy i s1) (email_filename_legacy j s2) = true ∧
    lex_lt (email_filename_legacy i s1)
      (attachment_filename_legacy i s1 base ext) = true ∧
    lex_lt (attachment_filename_legacy i s1 base ext)
      (email_filename_legacy j s2) = true := by
  refine ⟨?_, ?_, ?_, ?_, ?_, ?_⟩
  · simp only [email_filename, List.append_assoc]
    exact pad4_mono i j hij hj _ _
  · have h := lex_lt_same_prefix (pad4 (decRepr i)) 'a' 'b'
      ('_' :: (safe_subject s1 ++ ".md".toList)) ('_' :: (base ++ ext)) (by decide)
    simpa [email_filename, attachment_filename, List.append_assoc] using h
  · simp only [attachment_filename, email_filename, List.append_assoc]
    exact pad4_mono i j hij hj _ _
  · simp only [email_filename_legacy, List.append_assoc]
    exact pad4_mono i j hij hj _ _
  · have h := lex_lt_same_prefix (pad4 (decRepr i) ++ '_' :: safe_subject s1) '.' '_'
      "md".toList ("attachment_".toList ++ base ++ ext) (by decide)
    simpa [email_filename_legacy, attachment_filename_legacy, List.append_assoc] using h
  · simp only [attachment_filename_legacy, email_filename_legacy, List.append_assoc]
    exact pad4_mono i j hij hj _ _

theorem C8_sort_order_witness :
    lex_lt (email_filename 1 "Hello".toList) (email_filename 2 "Abc".toList) = true ∧
    lex_lt (email_filename 1 "Hello".toList)
      (attachment_filename 1 "report".toList ".pdf".toList) = true ∧
    lex_lt (attachment_filename 1 "report".toList ".pdf".toList)
      (email_filename 2 "Abc".toList) = true ∧
    lex_lt (email_filename_legacy 1 "Hello".toList)
      (email_filename_legacy 2 "Abc".toList) = true ∧
    lex_lt (email_filename_legacy 1 "Hello".toList)
      (attachment_filename_legacy 1 "Hello".toList "report".toList ".pdf".toList) = true ∧
    lex_lt (attachment_filename_legacy 1 "Hello".toList "report".toList ".pdf".toList)
      (email_filename_legacy 2 "Abc".toList) = true :=
  C8_sort_order 1 2 (by decide) (by decide) "Hello".toList "Abc".toList
    "report".toList ".pdf".toList

/-- Claim C8, counterexample: `%04d` padding breaks lexicographic order at
index 10000 — the file of sequence index 10000 sorts *before* the file of
index 9999, in both engines' naming schemes. -/
theorem C8_counterexample :
    9999 < 10000 ∧
    lex_lt (email_filename 10000 []) (email_filename 9999 []) = true ∧
    lex_lt (email_filename 9999 []) (email_filename 10000 []) = false ∧
    lex_lt (email_filename_legacy 10000 []) (email_filename_legacy 9999 []) = true := by
  exact ⟨by decide, by decide, by decide, by decide⟩

theorem C2_count_inclusive_witness :
    count_inclusive_emails wit_st.gs =
      (wit_st.gs.emails.filter
        (fun e => decide (∀ e2 ∈ wit_st.gs.emails, e2.parentId ≠ some e.messageId))).length ∧
    (∀ x ∈ pids wit_st.gs, x ∈ mids wit_st.gs) ∧ (mids wit_st.gs).Nodup ∧
    count_inclusive_emails wit_st.gs =
      wit_st.gs.emails.length - (pids wit_st.gs).dedup.length :=
  @C2_count_inclusive (fun _ => 0) 2 [pa, pb, pc, pd] none 0 wit_st ⟨4, by decide⟩

theorem C5_no_rebranching_witness :
    (∀ m : ℕ, (wit_st.gs.emails.filter (fun e => e.parentId == some m)).length ≤ 1) ∧
    (∀ (gs : GenState) (tid : ℕ) (m : Email), open_tip gs tid = some m →
        m ∈ thread_msgs gs tid ∧ m.messageId ∉ gs.repliedParentIds) ∧
    (∀ (gs : GenState) (e : Email) (p : ℕ), e.parentId = some p →
        p ∈ (store_email gs e).repliedParentIds) :=
  @C5_no_rebranching (fun _ => 0) 2 [pa, pb, pc, pd] none 0 wit_st ⟨4, by decide⟩

theorem C6_monotonic_clock_witness :
    dates_ok wit_st.gs.emails = true ∧
    (∀ (rand2 : ℕ → ℕ) (gs : GenState) (e : Email) (gs2 : GenState),
        create_root_email rand2 gs = some (e, gs2) →
          e.date = gs2.currentDate ∧ gs.currentDate + 1 ≤ gs2.currentDate ∧
            gs2.currentDate ≤ gs.currentDate + 120) ∧
    (∀ (rand2 : ℕ → ℕ) (gs : GenState) (parent e : Email) (gs2 : GenState),
        reply_to rand2 gs parent = some (e, gs2) →
          e.date = gs2.currentDate ∧ gs.currentDate + 1 ≤ gs2.currentDate ∧
            gs2.currentDate ≤ gs.currentDate + 120) ∧
    (∀ (rand2 : ℕ → ℕ) (gs : GenState) (parent e : Email) (gs2 : GenState),
        forward rand2 gs parent = some (e, gs2) →
          e.date = gs2.currentDate ∧ gs.currentDate + 1 ≤ gs2.currentDate ∧
            gs2.currentDate ≤ gs.currentDate + 120) ∧
    (∀ (rand2 : ℕ → ℕ) (gs : GenState) (tid tlen : ℕ) (parent : Email),
        open_tip gs tid = some parent →
        chosen_action rand2 gs tid = SimAction.nothing →
        sim_inner rand2 gs tid tlen =
          .next ⟨{ gs with rpos := gs.rpos + 1 }, some (tid, tlen)⟩) :=
  @C6_monotonic_clock (fun _ => 0) 2 [pa, pb, pc, pd] none 0 wit_st ⟨4, by decide⟩

theorem C10_forward_marks_replied_witness :
    (∀ (gs : GenState) (e : Email) (p : ℕ), e.parentId = some p →
        p ∈ (store_email gs e).repliedParentIds) ∧
    (∀ (rand2 : ℕ → ℕ) (gs : GenState) (parent e : Email) (gs2 : GenState),
        forward rand2 gs parent = some (e, gs2) →
          parent.messageId ∈ gs2.repliedParentIds) ∧
    (∀ (gs : GenState) (tid : ℕ) (m : Email), open_tip gs tid = some m →
        has_reply gs m.messageId = false) ∧
    (∀ m : ℕ, (wit_st.gs.emails.filter (fun e => e.parentId == some m)).length ≤ 1) ∧
    (∀ (st1 st2 : SimSt), sim_step (fun _ => 0) 2 st1 = .next st2 →
        ∀ x ∈ st1.gs.repliedParentIds, x ∈ st2.gs.repliedParentIds) :=
  @C10_forward_marks_replied (fun _ => 0) 2 [pa, pb, pc, pd] none 0 wit_st ⟨4, by decide⟩

theorem C1_thread_invariant_witness :
    (∀ (rand2 : ℕ → ℕ) (gs : GenState) (parent e : Email) (gs2 : GenState),
        reply_to rand2 gs parent = some (e, gs2) → e.threadId = parent.threadId) ∧
    (∀ (rand2 : ℕ → ℕ) (gs : GenState) (parent e : Email) (gs2 : GenState),
        EngineInv gs → parent ∈ gs.emails →
        forward rand2 gs parent = some (e, gs2) →
          e.threadId ≠ parent.threadId ∧ ∀ e2 ∈ gs.emails, e2.threadId ≠ e.threadId) ∧
    thread_coherent wit_st.gs = true :=
  @C1_thread_invariant (fun _ => 0) 2 [pa, pb, pc, pd] none 0 wit_st ⟨4, by decide⟩

theorem C7_forward_downgrade_witness :
    can_forward_to_new_recipients wit_fwd_gs 1 = true :=
  C7_forward_downgrade.1 (fun _ => 8) wit_fwd_gs 1 (by decide)

theorem C4_root_creation_witness :
    ∃ (e : Email) (gs2 : GenState) (sender : Person) (rs : List Person),
      create_root_email (fun _ => 0) (init_state [pa, pb, pc, pd] none 0) =
        some (e, gs2) ∧
      sender ∈ (init_state [pa, pb, pc, pd] none 0).roster ∧
      e.sender = get_person_display sender ∧
      e.recipients = rs.map get_person_display ∧
      1 ≤ rs.length ∧ rs.length ≤ 3 ∧ rs.Nodup ∧
      ∀ x ∈ rs, x ∈ (init_state [pa, pb, pc, pd] none 0).roster ∧ x ≠ sender :=
  C4_root_creation (fun _ => 0) (init_state [pa, pb, pc, pd] none 0)
    (by decide) (by decide)


/-- `random.choice` fails only on an empty sequence. -/
theorem choice_none {α : Type} {l : List α} {r : ℕ} (h : choice l r = none) :
    l = [] := by
  unfold choice at h
  rw [List.get?_eq_none] at h
  cases l with
  | nil => rfl
  | cons a t =>
    have h2 := Nat.mod_lt r (show 0 < (a :: t).length by simp)
    omega

theorem pick_action_not_nothing {r : ℕ} (h : r % 10 ≠ 9) :
    pick_action r ≠ SimAction.nothing := by
  unfold pick_action
  have h10 : r % 10 < 10 := Nat.mod_lt r (by omega)
  by_cases h8 : r % 10 < 8
  · rw [if_pos h8]
    simp
  · rw [if_neg h8, if_pos (by omega)]
    simp

theorem chosen_action_not_nothing {rand : ℕ → ℕ} {gs : GenState} {tid : ℕ}
    (h : rand gs.rpos % 10 ≠ 9) : chosen_action rand gs tid ≠ SimAction.nothing := by
  cases hpa : pick_action (rand gs.rpos) with
  | reply =>
    simp [chosen_action, hpa]
  | fwd =>
    simp only [chosen_action, hpa]
    split <;> simp
  | nothing => exact absurd hpa (pick_action_not_nothing h)

/-- `reply_to` succeeds whenever the parent has a recipient. -/
theorem reply_to_total (rand : ℕ → ℕ) (gs : GenState) (parent : Email)
    (h : parent.recipients ≠ []) :
    ∃ e gs2, reply_to rand gs parent = some (e, gs2) := by
  rcases hr : reply_to rand gs parent with _ | p
  · exfalso
    unfold reply_to at hr
    simp only [tick_time, store_email] at hr
    split at hr
    next hc =>
      have hnil := choice_none hc
      rw [List.map_eq_nil] at hnil
      exact h hnil
    next =>
      split at hr <;> exact absurd hr (by simp)
  · exact ⟨p.1, p.2, rfl⟩

/-- `forward` succeeds whenever the roster is nonempty. -/
theorem forward_total (rand : ℕ → ℕ) (gs : GenState) (parent : Email)
    (h : gs.roster ≠ []) :
    ∃ e gs2, forward rand gs parent = some (e, gs2) := by
  rcases hf : forward rand gs parent with _ | p
  · exfalso
    unfold forward at hf
    simp only [tick_time, store_email] at hf
    split at hf
    next hc =>
      split at hc
      · exact h (choice_none hc)
      next hni =>
        have := choice_none hc
        rw [this] at hni
        simp at hni
    next sender hc =>
      split at hf
      next hpot =>
        split at hpot
        · rcases hcc : choice gs.roster (rand (gs.rpos + 1)) with _ | q
          · exact h (choice_none hcc)
          · rw [hcc] at hpot
            simp at hpot
        · simp at hpot
      next potential hpot =>
        split at hf
        next hrc =>
          have hpe := choice_none hrc
          split at hpot
          · rcases hcc : choice gs.roster (rand (gs.rpos + 1)) with _ | q
            · exact h (choice_none hcc)
            · rw [hcc] at hpot
              dsimp only [] at hpot
              rw [hpe] at hpot
              simp at hpot
          next hni =>
            dsimp only [] at hpot
            rw [hpe, Option.some_inj] at hpot
            rw [hpot] at hni
            simp at hni
        next recipient hrc =>
          split at hf <;> exact absurd hf (by simp)
  · exact ⟨p.1, p.2, rfl⟩

/-- A list with an element counted by `p` but not by `q` (with `q` below `p`)
has strictly fewer `q`-elements. -/
theorem countP_lt {α : Type} (p q : α → Bool) :
    ∀ (l : List α) (a : α), a ∈ l → (∀ x ∈ l, q x = true → p x = true) →
      p a = true → q a = false → l.countP q + 1 ≤ l.countP p := by
  intro l
  induction l with
  | nil =>
    intro a ha
    cases ha
  | cons b t ih =>
    intro a ha himp hpa hqa
    rw [List.countP_cons, List.countP_cons]
    rcases List.mem_cons.mp ha with rfl | hat
    · have hmono : t.countP q ≤ t.countP p :=
        List.countP_mono_left (fun x hx => himp x (List.mem_cons_of_mem a hx))
      have hnq : ¬(q a = true) := by
        rw [hqa]
        simp
      rw [if_neg hnq, if_pos hpa]
      omega
    · have hrec := ih a hat (fun x hx => himp x (List.mem_cons_of_mem b hx)) hpa hqa
      have hbq : q b = true → p b = true := himp b (List.mem_cons_self b t)
      by_cases hqb : q b = true
      · rw [if_pos hqb, if_pos (hbq hqb)]
        omega
      · rw [if_neg hqb]
        have hle : (if p b = true then 1 else 0) ≤ 1 := by
          split <;> omega
        omega

/-- Appending a fresh element grows the deduplicated length by one. -/
theorem dedup_append_notmem (l : List ℕ) (x : ℕ) (hx : x ∉ l) :
    (l ++ [x]).dedup.length = l.dedup.length + 1 := by
  rw [← List.card_toFinset, ← List.card_toFinset]
  rw [List.toFinset_append]
  have h1 : ([x] : List ℕ).toFinset = {x} := rfl
  rw [h1]
  rw [show l.toFinset ∪ ({x} : Finset ℕ) = insert x l.toFinset from by
    rw [Finset.insert_eq, Finset.union_comm]]
  rw [Finset.card_insert_of_not_mem (by simpa using hx)]

/-- Storing a root (no parent) raises the inclusive count by one. -/
theorem count_op_parent_none {gs gs2 : GenState} {e : Email} (inv : EngineInv gs)
    (inv2 : EngineInv gs2) (hem : gs2.emails = gs.emails ++ [e])
    (hp : e.parentId = none) :
    count_inclusive_emails gs2 = count_inclusive_emails gs + 1 := by
  have h1 := count_inclusive_spec inv
  have h2 := count_inclusive_spec inv2
  have hp2 : pids gs2 = pids gs := by
    rw [pids_append hem, hp]
    simp
  rw [hp2] at h2
  have hlen : gs2.emails.length = gs.emails.length + 1 := by
    rw [hem]
    simp
  omega

/-- Storing a reply or forward of a not-yet-replied parent keeps the
inclusive count. -/
theorem count_op_parent_new {gs gs2 : GenState} {e : Email} {p : ℕ}
    (inv : EngineInv gs) (inv2 : EngineInv gs2)
    (hem : gs2.emails = gs.emails ++ [e])
    (hp : e.parentId = some p) (hnp : p ∉ pids gs) :
    count_inclusive_emails gs2 = count_inclusive_emails gs := by
  have h1 := count_inclusive_spec inv
  have h2 := count_inclusive_spec inv2
  have hp2 : pids gs2 = pids gs ++ [p] := by
    rw [pids_append hem, hp]
    rfl
  rw [hp2, dedup_append_notmem _ _ hnp] at h2
  have hlen : gs2.emails.length = gs.emails.length + 1 := by
    rw [hem]
    simp
  omega

/-- How a stored message changes a thread's message list. -/
theorem thread_msgs_append {gs gs2 : GenState} {e : Email}
    (hem : gs2.emails = gs.emails ++ [e]) (tid : ℕ) :
    thread_msgs gs2 tid =
      thread_msgs gs tid ++ if e.threadId = tid then [e] else [] := by
  unfold thread_msgs
  rw [hem, List.filter_append]
  congr 1
  by_cases h : e.threadId = tid
  · rw [if_pos h]
    simp [List.filter_cons, h]
  · rw [if_neg h]
    simp [List.filter_cons, h]

/-- Storing a child of the open tip strictly shrinks the thread's unreplied
set, up to the one message the store may add to the thread. -/
theorem unreplied_count_step {gs gs2 : GenState} {e parent : Email} {tid : ℕ}
    (hem : gs2.emails = gs.emails ++ [e])
    (hrep : gs2.repliedParentIds = gs.repliedParentIds ++ [parent.messageId])
    (hpar : parent ∈ thread_msgs gs tid)
    (hopen : has_reply gs parent.messageId = false) :
    unreplied_count gs2 tid ≤
      unreplied_count gs tid - 1 + (if e.threadId = tid then 1 else 0) := by
  unfold unreplied_count
  rw [thread_msgs_append hem tid, List.filter_append, List.length_append]
  rw [← List.countP_eq_length_filter, ← List.countP_eq_length_filter,
    ← List.countP_eq_length_filter]
  have himp : ∀ x ∈ thread_msgs gs tid,
      (!(has_reply gs2 x.messageId)) = true → (!(has_reply gs x.messageId)) = true := by
    intro x hx hq
    rw [Bool.not_eq_eq_eq_not, Bool.not_true, Bool.eq_false_iff] at hq ⊢
    intro hc
    apply hq
    unfold has_reply at hc ⊢
    rw [hrep]
    rw [contains_true_iff] at hc ⊢
    exact List.mem_append_left _ hc
  have hqa : (!(has_reply gs2 parent.messageId)) = false := by
    rw [Bool.not_eq_eq_eq_not, Bool.not_false]
    unfold has_reply
    rw [hrep, contains_true_iff]
    exact List.mem_append_right _ (List.mem_singleton.mpr rfl)
  have hpa : (!(has_reply gs parent.messageId)) = true := by
    rw [hopen]
    rfl
  have hkey := countP_lt (fun m => !(has_reply gs m.messageId))
    (fun m => !(has_reply gs2 m.messageId)) (thread_msgs gs tid) parent hpar himp hpa hqa
  have htail : (if e.threadId = tid then [e] else []).countP
      (fun m => !(has_reply gs2 m.messageId)) ≤ (if e.threadId = tid then 1 else 0) := by
    by_cases h : e.threadId = tid
    · rw [if_pos h, if_pos h]
      rw [List.countP_cons]
      simp only [List.countP_nil]
      split <;> omega
    · rw [if_neg h, if_neg h]
      rfl
  omega

/-- One inner-loop iteration under a no-"nothing" oracle: it either closes
the thread untouched or stores a message that keeps the inclusive count and
strictly shrinks the thread's remaining work. -/
theorem sim_inner_progress {rand : ℕ → ℕ} {gs1 : GenState} {tid tlen : ℕ}
    (hno : ∀ i, rand i % 10 ≠ 9) (inv : EngineInv gs1)
    (hros : gs1.roster ≠ []) (htid : tid < gs1.ctr)
    (hL : (thread_msgs gs1 tid).length < tlen) (hb : 2 ≤ tlen ∧ tlen ≤ 9) :
    ∃ st2, sim_inner rand gs1 tid tlen = .next st2 ∧
      SimInv st2 ∧ st2.gs.roster = gs1.roster ∧ gs1.ctr ≤ st2.gs.ctr ∧
      (st2.cur = none ∧ st2.gs.emails = gs1.emails ∨
        st2.cur = some (tid, tlen) ∧
          count_inclusive_emails st2.gs = count_inclusive_emails gs1 ∧
          measure_inner st2.gs tid tlen < measure_inner gs1 tid tlen) := by
  rcases hopen : open_tip gs1 tid with _ | parent
  · refine ⟨⟨gs1, none⟩, ?_, ⟨inv, by simp⟩, rfl, le_refl _, Or.inl ⟨rfl, rfl⟩⟩
    simp only [sim_inner, hopen]
  · obtain ⟨hparent, htidp, hopenp⟩ := open_tip_spec hopen
    have hparmem : parent ∈ thread_msgs gs1 tid := by
      unfold thread_msgs
      rw [List.mem_filter]
      exact ⟨hparent, by simp [htidp]⟩
    have hhr : has_reply gs1 parent.messageId = false := by
      unfold has_reply
      rw [Bool.eq_false_iff]
      intro hc
      exact hopenp (contains_true_iff.mp hc)
    have hge : 1 ≤ unreplied_count gs1 tid := by
      unfold unreplied_count
      have hmem : parent ∈ (thread_msgs gs1 tid).filter
          (fun m => !(has_reply gs1 m.messageId)) := by
        rw [List.mem_filter]
        refine ⟨hparmem, ?_⟩
        rw [hhr]
        rfl
      have := List.length_pos.mpr (List.ne_nil_of_mem hmem)
      omega
    have hnp : parent.messageId ∉ pids gs1 := fun hc => hopenp (inv.pidsSub _ hc)
    cases hact : chosen_action rand gs1 tid with
    | nothing => exact absurd hact (chosen_action_not_nothing (hno gs1.rpos))
    | reply =>
      obtain ⟨er, gsr, hrt⟩ := reply_to_total rand { gs1 with rpos := gs1.rpos + 1 }
        parent (inv.recipsNE parent hparent)
      have hstep : sim_inner rand gs1 tid tlen = .next ⟨gsr, some (tid, tlen)⟩ := by
        simp only [sim_inner, hopen, hact, hrt]
      obtain ⟨hshape, hpid, htidr, htyr, hmidr, hctrr⟩ :=
        reply_to_shape rand { gs1 with rpos := gs1.rpos + 1 } parent er gsr hrt
      have hsim2 : SimInv ⟨gsr, some (tid, tlen)⟩ := sim_inner_preserves inv hb hstep
      have hem : gsr.emails = gs1.emails ++ [er] := hshape.emails
      have hrepl : gsr.repliedParentIds =
          gs1.repliedParentIds ++ [parent.messageId] := by
        have h0 : gsr.repliedParentIds =
            if gs1.repliedParentIds.contains parent.messageId then
              gs1.repliedParentIds
            else gs1.repliedParentIds ++ [parent.messageId] :=
          hshape.repliedSome parent.messageId hpid
        rw [h0, if_neg ?_]
        intro hc
        exact hopenp (contains_true_iff.mp hc)
      have hcnt : count_inclusive_emails gsr = count_inclusive_emails gs1 :=
        count_op_parent_new inv hsim2.eng hem hpid hnp
      have htide : er.threadId = tid := by
        have h1 : er.threadId = parent.threadId := htidr
        rw [h1, htidp]
      have htm : thread_msgs gsr tid = thread_msgs gs1 tid ++ [er] := by
        rw [thread_msgs_append hem tid, if_pos htide]
      have hur := unreplied_count_step hem hrepl hparmem hhr
      rw [if_pos htide] at hur
      have hmeas : measure_inner gsr tid tlen < measure_inner gs1 tid tlen := by
        unfold measure_inner
        rw [htm, List.length_append]
        simp only [List.length_cons, List.length_nil]
        omega
      refine ⟨⟨gsr, some (tid, tlen)⟩, hstep, hsim2, hshape.roster, ?_,
        Or.inr ⟨rfl, hcnt, hmeas⟩⟩
      show gs1.ctr ≤ gsr.ctr
      have h1 : gsr.ctr = gs1.ctr + 1 := hctrr
      omega
    | fwd =>
      have hros2 : ({ gs1 with rpos := gs1.rpos + 1 } : GenState).roster ≠ [] := hros
      obtain ⟨ef, gsf, hft⟩ := forward_total rand { gs1 with rpos := gs1.rpos + 1 }
        parent hros2
      have hstep : sim_inner rand gs1 tid tlen = .next ⟨gsf, some (tid, tlen)⟩ := by
        simp only [sim_inner, hopen, hact, hft]
      obtain ⟨hshape, hpid, htidf, htyf, hmidf, hctrf⟩ :=
        forward_shape rand { gs1 with rpos := gs1.rpos + 1 } parent ef gsf hft
      have hsim2 : SimInv ⟨gsf, some (tid, tlen)⟩ := sim_inner_preserves inv hb hstep
      have hem : gsf.emails = gs1.emails ++ [ef] := hshape.emails
      have hrepl : gsf.repliedParentIds =
          gs1.repliedParentIds ++ [parent.messageId] := by
        have h0 : gsf.repliedParentIds =
            if gs1.repliedParentIds.contains parent.messageId then
              gs1.repliedParentIds
            else gs1.repliedParentIds ++ [parent.messageId] :=
          hshape.repliedSome parent.messageId hpid
        rw [h0, if_neg ?_]
        intro hc
        exact hopenp (contains_true_iff.mp hc)
      have hcnt : count_inclusive_emails gsf = count_inclusive_emails gs1 :=
        count_op_parent_new inv hsim2.eng hem hpid hnp
      have htide : ¬(ef.threadId = tid) := by
        have h1 : ef.threadId = gs1.ctr := htidf
        omega
      have htm : thread_msgs gsf tid = thread_msgs gs1 tid := by
        rw [thread_msgs_append hem tid, if_neg htide, List.append_nil]
      have hur := unreplied_count_step hem hrepl hparmem hhr
      rw [if_neg htide] at hur
      have hmeas : measure_inner gsf tid tlen < measure_inner gs1 tid tlen := by
        unfold measure_inner
        rw [htm]
        omega
      refine ⟨⟨gsf, some (tid, tlen)⟩, hstep, hsim2, hshape.roster, ?_,
        Or.inr ⟨rfl, hcnt, hmeas⟩⟩
      show gs1.ctr ≤ gsf.ctr
      have h1 : gsf.ctr = gs1.ctr + 2 := hctrf
      omega

/-- One `simulate` step under a no-"nothing" oracle either returns or makes
measurable progress. -/
theorem termination_step {rand : ℕ → ℕ} {target : ℕ} {st : SimSt}
    (hno : ∀ i, rand i % 10 ≠ 9) (hterm : TermHyp st) :
    (∃ gs2, sim_step rand target st = .done gs2) ∨
    (∃ st2, sim_step rand target st = .next st2 ∧ TermHyp st2 ∧
      sim_measure target st2 < sim_measure target st) := by
  obtain ⟨hsim, hnd, hlen4, htidb⟩ := hterm
  have inv := hsim.eng
  rcases hcur : st.cur with _ | ⟨tid, tlen⟩
  · by_cases hdone : target ≤ count_inclusive_emails st.gs
    · left
      refine ⟨st.gs, ?_⟩
      simp only [sim_step, hcur]
      rw [if_pos hdone]
    · right
      obtain ⟨e, gs2, sender, rs, hcre, _, _, _, _, _, _, _⟩ :=
        create_root_success rand st.gs hnd hlen4
      obtain ⟨hop, hpnone, hty, hmid, htid2, hctr2⟩ :=
        create_root_shape rand st.gs e gs2 hcre
      have inv2 : EngineInv gs2 :=
        op_preserves_inv inv hop (by omega)
          (fun p hp => by rw [hpnone] at hp; cases hp)
      have hkc : ¬(st.gs.threadKeys.contains e.threadId = true) := by
        intro hc
        have := inv.keysLt _ (contains_true_iff.mp hc)
        omega
      have hkeys : gs2.threadKeys = st.gs.threadKeys ++ [e.threadId] := by
        rw [hop.keys, if_neg hkc]
      have hlast : gs2.threadKeys.getLast? = some e.threadId := by
        rw [hkeys]
        exact List.getLast?_concat _
      refine ⟨⟨{ gs2 with rpos := gs2.rpos + 1 },
        some (e.threadId, randint 2 9 (rand gs2.rpos))⟩, ?_, ?_, ?_⟩
      · simp only [sim_step, hcur]
        rw [if_neg hdone]
        simp only [hcre, hlast]
      · refine ⟨⟨engine_inv_rpos inv2, ?_⟩, ?_, ?_, ?_⟩
        · intro c hc
          simp only [Option.toList_some, List.mem_singleton] at hc
          subst hc
          refine ⟨?_, ?_⟩ <;> (simp only [randint]; omega)
        · show gs2.roster.Nodup
          rw [show gs2.roster = st.gs.roster from hop.roster]
          exact hnd
        · show 4 ≤ gs2.roster.length
          rw [show gs2.roster = st.gs.roster from hop.roster]
          exact hlen4
        · intro c hc
          simp only [Option.toList_some, List.mem_singleton] at hc
          subst hc
          show e.threadId < gs2.ctr
          omega
      · have hc2 : count_inclusive_emails gs2 = count_inclusive_emails st.gs + 1 :=
          count_op_parent_none inv inv2 hop.emails hpnone
        have htm0 : thread_msgs st.gs e.threadId = [] := by
          unfold thread_msgs
          rw [List.filter_eq_nil_iff]
          intro a ha hbeq
          rw [beq_iff_eq] at hbeq
          have := inv.tidLtCtr a ha
          omega
        have htm1 : thread_msgs gs2 e.threadId = [e] := by
          rw [thread_msgs_append hop.emails, htm0, if_pos rfl]
          simp
        have hnr : has_reply gs2 e.messageId = false := by
          unfold has_reply
          rw [hop.repliedNone hpnone, Bool.eq_false_iff]
          intro hc
          have h1 := inv.repliedSub _ (contains_true_iff.mp hc)
          have h2 := pids_sub_mids inv _ h1
          obtain ⟨e2, he2, he2m⟩ := List.mem_map.mp h2
          have := inv.midLtCtr e2 he2
          omega
        have hu1 : unreplied_count gs2 e.threadId = 1 := by
          unfold unreplied_count
          rw [htm1]
          simp [List.filter_cons, hnr]
        simp only [sim_measure, hcur]
        have e1 : count_inclusive_emails { gs2 with rpos := gs2.rpos + 1 } =
            count_inclusive_emails gs2 := rfl
        have e2 : measure_inner { gs2 with rpos := gs2.rpos + 1 } e.threadId
            (randint 2 9 (rand gs2.rpos)) =
            measure_inner gs2 e.threadId (randint 2 9 (rand gs2.rpos)) := rfl
        rw [e1, e2]
        have e3 : measure_inner gs2 e.threadId (randint 2 9 (rand gs2.rpos)) =
            2 + (randint 2 9 (rand gs2.rpos) - 1) + 1 := by
          unfold measure_inner
          rw [htm1, hu1]
          simp
        rw [e3, hc2]
        have h9 : randint 2 9 (rand gs2.rpos) ≤ 9 := by
          simp only [randint]
          omega
        omega
  · right
    have hbounds : 2 ≤ tlen ∧ tlen ≤ 9 := hsim.curBounds (tid, tlen) (by rw [hcur]; simp)
    have htidlt : tid < st.gs.ctr := htidb (tid, tlen) (by rw [hcur]; simp)
    have hrosne : st.gs.roster ≠ [] := by
      intro hc
      rw [hc] at hlen4
      simp at hlen4
    by_cases hguard : count_inclusive_emails st.gs < target ∧
        (thread_msgs st.gs tid).length < tlen
    case neg =>
      refine ⟨⟨st.gs, none⟩, ?_, ⟨⟨inv, by simp⟩, hnd, hlen4, by simp⟩, ?_⟩
      · simp only [sim_step, hcur]
        rw [if_neg hguard]
      · simp only [sim_measure, hcur]
        have h2 : 2 ≤ measure_inner st.gs tid tlen := by
          unfold measure_inner
          omega
        omega
    case pos =>
      obtain ⟨hcnt, hL⟩ := hguard
      by_cases h2L : 2 ≤ (thread_msgs st.gs tid).length
      · by_cases hearly : rand st.gs.rpos % 100 < 15
        · refine ⟨⟨{ st.gs with rpos := st.gs.rpos + 1 }, none⟩, ?_,
            ⟨⟨engine_inv_rpos inv, by simp⟩, hnd, hlen4, by simp⟩, ?_⟩
          · simp only [sim_step, hcur]
            rw [if_pos ⟨hcnt, hL⟩, if_pos h2L, if_pos hearly]
          · simp only [sim_measure, hcur]
            have e1 : count_inclusive_emails { st.gs with rpos := st.gs.rpos + 1 } =
                count_inclusive_emails st.gs := rfl
            rw [e1]
            have h2 : 2 ≤ measure_inner st.gs tid tlen := by
              unfold measure_inner
              omega
            omega
        · have invb : EngineInv { st.gs with rpos := st.gs.rpos + 1 } :=
            engine_inv_rpos inv
          have hrosb : ({ st.gs with rpos := st.gs.rpos + 1 } : GenState).roster ≠ [] :=
            hrosne
          obtain ⟨st2, hstep, hsim2, hrost2, hctr2, hcases⟩ :=
            sim_inner_progress hno invb hrosb htidlt hL hbounds
          have hrost3 : st2.gs.roster = st.gs.roster := hrost2
          have hctr3 : st.gs.ctr ≤ st2.gs.ctr := hctr2
          refine ⟨st2, ?_, ?_, ?_⟩
          · simp only [sim_step, hcur]
            rw [if_pos ⟨hcnt, hL⟩, if_pos h2L, if_neg hearly]
            exact hstep
          · refine ⟨hsim2, ?_, ?_, ?_⟩
            · rw [hrost3]
              exact hnd
            · rw [hrost3]
              exact hlen4
            · intro c hc
              rcases hcases with ⟨hnone, _⟩ | ⟨hsome, _, _⟩
              · rw [hnone] at hc
                cases hc
              · rw [hsome] at hc
                simp only [Option.toList_some, List.mem_singleton] at hc
                subst hc
                show tid < st2.gs.ctr
                omega
          · rcases hcases with ⟨hnone, hemails⟩ | ⟨hsome, hcnt2, hmeas⟩
            · have he : st2.gs.emails = st.gs.emails := hemails
              have hc2 : count_inclusive_emails st2.gs =
                  count_inclusive_emails st.gs := by
                unfold count_inclusive_emails
                rw [he]
              simp only [sim_measure, hnone, hcur]
              rw [hc2]
              have h2 : 2 ≤ measure_inner st.gs tid tlen := by
                unfold measure_inner
                omega
              omega
            · have hc2 : count_inclusive_emails st2.gs =
                  count_inclusive_emails st.gs := hcnt2
              have hm2 : measure_inner st2.gs tid tlen <
                  measure_inner st.gs tid tlen := hmeas
              simp only [sim_measure, hsome, hcur]
              rw [hc2]
              omega
      · obtain ⟨st2, hstep, hsim2, hrost2, hctr2, hcases⟩ :=
          sim_inner_progress hno inv hrosne htidlt hL hbounds
        refine ⟨st2, ?_, ?_, ?_⟩
        · simp only [sim_step, hcur]
          rw [if_pos ⟨hcnt, hL⟩, if_neg h2L]
          exact hstep
        · refine ⟨hsim2, ?_, ?_, ?_⟩
          · rw [hrost2]
            exact hnd
          · rw [hrost2]
            exact hlen4
          · intro c hc
            rcases hcases with ⟨hnone, _⟩ | ⟨hsome, _, _⟩
            · rw [hnone] at hc
              cases hc
            · rw [hsome] at hc
              simp only [Option.toList_some, List.mem_singleton] at hc
              subst hc
              show tid < st2.gs.ctr
              omega
        · rcases hcases with ⟨hnone, hemails⟩ | ⟨hsome, hcnt2, hmeas⟩
          · have hc2 : count_inclusive_emails st2.gs =
                count_inclusive_emails st.gs := by
              unfold count_inclusive_emails
              rw [hemails]
            simp only [sim_measure, hnone, hcur]
            rw [hc2]
            have h2 : 2 ≤ measure_inner st.gs tid tlen := by
              unfold measure_inner
              omega
            omega
          · simp only [sim_measure, hsome, hcur]
            rw [hcnt2]
            omega

theorem sim_measure_pos (target : ℕ) (st : SimSt) : 1 ≤ sim_measure target st := by
  rcases hcur : st.cur with _ | ⟨tid, tlen⟩
  · simp only [sim_measure, hcur]
    omega
  · simp only [sim_measure, hcur]
    unfold measure_inner
    omega

/-- Fuel one more than the measure suffices for the loop to return. -/
theorem sim_run_of_measure {rand : ℕ → ℕ} {target : ℕ}
    (hno : ∀ i, rand i % 10 ≠ 9) :
    ∀ (k : ℕ) (st : SimSt), TermHyp st → sim_measure target st ≤ k →
      ∃ gs2, sim_run rand target (k + 1) st = .done gs2 := by
  intro k
  induction k with
  | zero =>
    intro st hterm hm
    have := sim_measure_pos target st
    omega
  | succ k ih =>
    intro st hterm hm
    rcases @termination_step rand target st hno hterm with
      ⟨gs2, hdone⟩ | ⟨st2, hnext, hterm2, hlt⟩
    · refine ⟨gs2, ?_⟩
      simp only [sim_run, hdone]
    · obtain ⟨gs2, hrun⟩ := ih st2 hterm2 (by omega)
      refine ⟨gs2, ?_⟩
      simp only [sim_run, hnext]
      exact hrun

/-- The loop returns normally only once the inclusive target is met. -/
theorem sim_run_done_count (rand : ℕ → ℕ) (target n : ℕ) :
    ∀ (st : SimSt) (gs : GenState),
      sim_run rand target n st = .done gs → target ≤ count_inclusive_emails gs := by
  induction n with
  | zero =>
    intro st gs h
    exact absurd h (by simp [sim_run])
  | succ n ih =>
    intro st gs h
    rw [sim_run] at h
    cases hs : sim_step rand target st with
    | next st2 =>
      rw [hs] at h
      exact ih st2 gs h
    | err =>
      rw [hs] at h
      exact absurd h (by simp)
    | done gs2 =>
      rw [hs] at h
      rw [StepRes.done.injEq] at h
      subst h
      unfold sim_step at hs
      split at hs
      next hcur =>
        split at hs
        next hle =>
          rw [StepRes.done.injEq] at hs
          subst hs
          exact hle
        next =>
          split at hs <;> try exact absurd hs (by simp)
          next =>
            split at hs <;> exact absurd hs (by simp)
      next tid tlen hcur =>
        split at hs
        next =>
          split at hs
          next =>
            split at hs
            · exact absurd hs (by simp)
            · exact absurd hs (sim_inner_no_done _ _ _ _ _)
          next => exact absurd hs (sim_inner_no_done _ _ _ _ _)
        next => exact absurd hs (by simp)

/-- Claim C3 (amended): the simulate loop returns normally only with the
inclusive count at least the target; and under every oracle whose weighted
draw never selects "nothing", with a roster of at least 4 distinct personas,
it is guaranteed to return within `11 * target + 2` loop iterations — but
termination is not unconditional (see the counterexample, where every draw is
"nothing" and the loop runs forever). -/
theorem C3_termination :
    (∀ (rand : ℕ → ℕ) (target n : ℕ) (st : SimSt) (gs : GenState),
        sim_run rand target n st = .done gs → target ≤ count_inclusive_emails gs) ∧
    (∀ (rand : ℕ → ℕ) (target : ℕ) (roster : List Person) (topic : Option Str)
        (start_date : ℕ),
        (∀ i, rand i % 10 ≠ 9) → roster.Nodup → 4 ≤ roster.length →
        ∃ gs2, sim_run rand target (11 * target + 2)
            (init_sim roster topic start_date) = .done gs2 ∧
          target ≤ count_inclusive_emails gs2) := by
  constructor
  · intro rand target n
    exact sim_run_done_count rand target n
  · intro rand target roster topic start_date hno hnd hlen
    have hterm : TermHyp (init_sim roster topic start_date) := by
      refine ⟨init_sim_inv roster topic start_date, hnd, hlen, ?_⟩
      intro c hc
      simp [init_sim] at hc
    have hm : sim_measure target (init_sim roster topic start_date) ≤
        11 * target + 1 := by
      show 11 * (target - count_inclusive_emails
        (init_state roster topic start_date)) + 1 ≤ 11 * target + 1
      have h0 : count_inclusive_emails (init_state roster topic start_date) = 0 := rfl
      rw [h0]
      omega
    obtain ⟨gs2, hrun⟩ :=
      sim_run_of_measure hno (11 * target + 1) (init_sim roster topic start_date)
        hterm hm
    exact ⟨gs2, hrun, sim_run_done_count rand target (11 * target + 2) _ _ hrun⟩

theorem C3_termination_witness :
    ∃ gs2, sim_run (fun _ => 0) 2 24 (init_sim [pa, pb, pc, pd] none 0) = .done gs2 ∧
      2 ≤ count_inclusive_emails gs2 :=
  C3_termination.2 (fun _ => 0) 2 [pa, pb, pc, pd] none 0
    (fun i => by
      show (0 : ℕ) % 10 ≠ 9
      decide) (by decide) (by decide)

end DataSynth
